import Mathlib

/-!
Verification development for the DiscordFS repository.

The filesystem core is shallowly embedded: machine integers (`u64`) become
`Nat` with explicit `% 2 ^ 64` where the code relies on the width, byte
buffers become `List Nat` (each element a byte value), Rust `String`s become
`List Nat` of Unicode code points (so that the byte length of a string is the
sum of the UTF-8 lengths of its characters, as in Rust), and every Rust
`assert!`/`panic!`/`expect` is modelled as an `Option` failure.  The remote
message log is modelled as an append-only list of blobs addressed by
1-based indices standing for the monotonically increasing message ids.
-/

set_option autoImplicit false
set_option maxRecDepth 8000

namespace DiscordFS

/-! ## Constants, from `directory_entry.rs` and `node.rs` -/

def NAME_LEN_SIZE : Nat := 8
def BLOCK_INDEX_SIZE : Nat := 8
def NAME_LEN : Nat := (1 <<< 10) - BLOCK_INDEX_SIZE - NAME_LEN_SIZE
def DIRECTORY_ENTRY_SIZE : Nat := NAME_LEN + BLOCK_INDEX_SIZE + NAME_LEN_SIZE
def KIND_SIZE : Nat := 8
def SIZE_SIZE : Nat := 8
def BLOCK_SIZE : Nat := 1 <<< 23
def BLOCK_COUNT : Nat := (BLOCK_SIZE - KIND_SIZE - SIZE_SIZE - BLOCK_INDEX_SIZE) / BLOCK_INDEX_SIZE
def MAX_FILE_SIZE : Nat := BLOCK_SIZE * BLOCK_COUNT
def ENTRY_COUNT : Nat :=
  (BLOCK_SIZE - KIND_SIZE - SIZE_SIZE - BLOCK_INDEX_SIZE) / (NAME_LEN + BLOCK_INDEX_SIZE)

def U64 : Nat := 2 ^ 64

/-! ## Little-endian `u64` byte codec -/

/-- The eight little-endian bytes of `n` as a `u64` (`u64::to_le_bytes`). -/
def u64le (n : Nat) : List Nat :=
  [n % 256, n / 256 % 256, n / 256 ^ 2 % 256, n / 256 ^ 3 % 256,
   n / 256 ^ 4 % 256, n / 256 ^ 5 % 256, n / 256 ^ 6 % 256, n / 256 ^ 7 % 256]

/-- `u64::from_le_bytes`: read a little-endian number from a byte list. -/
def leToNat : List Nat → Nat
  | [] => 0
  | b :: rest => b + 256 * leToNat rest

theorem u64le_length (n : Nat) : (u64le n).length = 8 := rfl

theorem leToNat_u64le (n : Nat) : leToNat (u64le n) = n % U64 := by
  simp only [u64le, leToNat, U64]
  omega

theorem u64le_lt (n : Nat) : ∀ b ∈ u64le n, b < 256 := by
  simp only [u64le]
  intro b hb
  simp only [List.mem_cons, List.not_mem_nil, or_false] at hb
  rcases hb with h | h | h | h | h | h | h | h <;> subst h <;> exact Nat.mod_lt _ (by norm_num)

theorem u64le_leToNat (bs : List Nat) (h8 : bs.length = 8) (hlt : ∀ b ∈ bs, b < 256) :
    u64le (leToNat bs) = bs := by
  match bs, h8 with
  | [b0, b1, b2, b3, b4, b5, b6, b7], _ =>
    simp only [List.mem_cons, List.not_mem_nil, or_false, forall_eq_or_imp, forall_eq] at hlt
    obtain ⟨h0, h1, h2, h3, h4, h5, h6, h7⟩ := hlt
    simp only [u64le, leToNat, List.cons.injEq, and_true]
    refine ⟨by omega, by omega, by omega, by omega, by omega, by omega, by omega, by omega⟩

theorem leToNat_lt_U64 (bs : List Nat) (h8 : bs.length ≤ 8) (hlt : ∀ b ∈ bs, b < 256) :
    leToNat bs < U64 := by
  match bs with
  | [] => simp [leToNat, U64]
  | [b0] | [b0, b1] | [b0, b1, b2] | [b0, b1, b2, b3] | [b0, b1, b2, b3, b4]
  | [b0, b1, b2, b3, b4, b5] | [b0, b1, b2, b3, b4, b5, b6]
  | [b0, b1, b2, b3, b4, b5, b6, b7] =>
    simp only [List.mem_cons, List.not_mem_nil, or_false, forall_eq_or_imp, forall_eq] at hlt
    simp only [leToNat, U64]
    omega
  | b0 :: b1 :: b2 :: b3 :: b4 :: b5 :: b6 :: b7 :: b8 :: rest =>
    simp at h8

/-! ## UTF-8: Rust `String` byte lengths

A Rust `String` is modelled as a list of Unicode code points.  `String::len`
is the UTF-8 byte length; `push`ing a `char` obtained from a byte `b` via
`b as char` pushes the code point `b` itself. -/

/-- UTF-8 encoded length of one code point. -/
def utf8Len (c : Nat) : Nat :=
  if c < 128 then 1 else if c < 2048 then 2 else if c < 65536 then 3 else 4

/-- UTF-8 bytes of one code point. -/
def encodeChar (c : Nat) : List Nat :=
  if c < 128 then [c]
  else if c < 2048 then [192 + c / 64, 128 + c % 64]
  else if c < 65536 then [224 + c / 4096, 128 + c / 64 % 64, 128 + c % 64]
  else [240 + c / 262144, 128 + c / 4096 % 64, 128 + c / 64 % 64, 128 + c % 64]

/-- UTF-8 bytes of a string (`str::as_bytes`). -/
def strBytes (s : List Nat) : List Nat := s.flatMap encodeChar

/-- Byte length of a string (`String::len`). -/
def byteLen (s : List Nat) : Nat := (strBytes s).length

theorem encodeChar_length (c : Nat) : (encodeChar c).length = utf8Len c := by
  simp only [encodeChar, utf8Len]
  split <;> try rfl
  split <;> try rfl
  split <;> rfl

theorem byteLen_nil : byteLen [] = 0 := rfl

theorem byteLen_cons (c : Nat) (s : List Nat) : byteLen (c :: s) = utf8Len c + byteLen s := by
  simp [byteLen, strBytes, encodeChar_length]

theorem encodeChar_ascii {c : Nat} (h : c < 128) : encodeChar c = [c] := by
  simp [encodeChar, h]

theorem strBytes_ascii {s : List Nat} (h : ∀ c ∈ s, c < 128) : strBytes s = s := by
  induction s with
  | nil => rfl
  | cons c rest ih =>
    simp only [strBytes, List.flatMap_cons] at *
    rw [encodeChar_ascii (h c (by simp)), ih (fun x hx => h x (by simp [hx]))]
    rfl

theorem byteLen_ascii {s : List Nat} (h : ∀ c ∈ s, c < 128) : byteLen s = s.length := by
  simp [byteLen, strBytes_ascii h]

theorem one_le_utf8Len (c : Nat) : 1 ≤ utf8Len c := by
  simp only [utf8Len]
  split <;> try norm_num
  split <;> try norm_num
  split <;> norm_num

theorem utf8Len_of_ge {c : Nat} (h : 128 ≤ c) : 2 ≤ utf8Len c := by
  simp only [utf8Len]
  rw [if_neg (by omega)]
  split <;> try norm_num
  split <;> norm_num

theorem length_le_byteLen (s : List Nat) : s.length ≤ byteLen s := by
  induction s with
  | nil => simp [byteLen_nil]
  | cons c rest ih =>
    rw [byteLen_cons]
    have := one_le_utf8Len c
    simp only [List.length_cons]
    omega

/-- The rebuilt-name length check: the byte length of a list of code points
equals its length exactly when every code point is ASCII. -/
theorem byteLen_eq_length_iff (s : List Nat) : byteLen s = s.length ↔ ∀ c ∈ s, c < 128 := by
  constructor
  · intro h c hc
    by_contra hge
    push_neg at hge
    induction s with
    | nil => simp at hc
    | cons d rest ih =>
      rw [byteLen_cons] at h
      simp only [List.length_cons] at h
      have h1 := one_le_utf8Len d
      have hrl := length_le_byteLen rest
      rcases List.mem_cons.mp hc with rfl | hmem
      · have := utf8Len_of_ge hge
        omega
      · exact ih (by omega) hmem
  · intro h
    rw [byteLen_ascii h]

/-! ## `NodeKind` (`node_kind.rs`) -/

inductive NodeKind where
  | Directory
  | File
deriving DecidableEq

def NodeKind.toNat : NodeKind → Nat
  | .Directory => 0
  | .File => 1

/-- `NodeKind::to_le_bytes`. -/
def NodeKind.to_le_bytes (k : NodeKind) : List Nat := u64le k.toNat

/-- `NodeKind::from_le_bytes`; the catch-all arm panics. -/
def NodeKind.from_le_bytes (bs : List Nat) : Option NodeKind :=
  match leToNat bs with
  | 0 => some .Directory
  | 1 => some .File
  | _ => none

/-! ## `DirectoryEntry` (`directory_entry.rs`)

In the Rust struct the `name_len` field is private and every construction
site (`new`, `set_name`, and the checked decoder) maintains
`name_len == name.len()`, so the field is kept derived here. -/

structure DirectoryEntry where
  name : List Nat
  block : Nat
deriving DecidableEq

/-- The `name_len` field: always the byte length of `name`. -/
def DirectoryEntry.name_len (e : DirectoryEntry) : Nat := byteLen e.name

/-- `DirectoryEntry::new`: no validation of the name whatsoever. -/
def DirectoryEntry.new (name : List Nat) (block : Nat) : DirectoryEntry := ⟨name, block⟩

/-- `DirectoryEntry::to_le_bytes`; the trailing `assert!` bounds the record
by `DIRECTORY_ENTRY_SIZE` and is modelled as failure. -/
def DirectoryEntry.to_le_bytes (e : DirectoryEntry) : Option (List Nat) :=
  let bytes := u64le e.name_len ++ strBytes e.name ++ u64le e.block
  if bytes.length ≤ DIRECTORY_ENTRY_SIZE then some bytes else none

/-- `DirectoryEntry::from_le_bytes`: repeatedly read `name_len`, the name
bytes (each byte pushed individually as a `char`, hence re-encoded through
UTF-8 in the rebuilt string), and `block`, until the buffer is exhausted.
Every `expect`/`assert!` is a failure. -/
def DirectoryEntry.from_le_bytes (bs : List Nat) : Option (List DirectoryEntry) :=
  if _hnil : bs = [] then some []
  else
    if _h8 : bs.length < NAME_LEN_SIZE then none
    else
      let nl := leToNat (bs.take NAME_LEN_SIZE)
      if _hmax : NAME_LEN < nl then none
      else
        let afterLen := bs.drop NAME_LEN_SIZE
        if _hname : afterLen.length < nl then none
        else
          let name := afterLen.take nl
          if _hcheck : nl ≠ byteLen name then none
          else
            let afterName := afterLen.drop nl
            if _hblk : afterName.length < BLOCK_INDEX_SIZE then none
            else
              match DirectoryEntry.from_le_bytes (afterName.drop BLOCK_INDEX_SIZE) with
              | none => none
              | some entries =>
                some (⟨name, leToNat (afterName.take BLOCK_INDEX_SIZE)⟩ :: entries)
termination_by bs.length
decreasing_by
  simp only [List.length_drop]
  have : 1 ≤ bs.length := by
    cases bs with
    | nil => exact absurd rfl _hnil
    | cons a l => simp
  simp only [NAME_LEN_SIZE, BLOCK_INDEX_SIZE] at *
  omega

/-! ## `Node` (`node.rs`) -/

structure Node where
  kind : NodeKind
  size : Nat
  parent_block_id : Nat
  blocks : List Nat
  entries : List DirectoryEntry
deriving DecidableEq

/-- `Node::new`. -/
def Node.new (kind : NodeKind) (parent_block_id : Nat) : Node :=
  ⟨kind, 0, parent_block_id, [], []⟩

/-- `Node::is_full` (directories only; the `assert!` is failure). -/
def Node.is_full (n : Node) : Option Bool :=
  if n.kind = .Directory then some (decide (n.size = ENTRY_COUNT)) else none

/-- `Node::contains_entry` (directories only). -/
def Node.contains_entry (n : Node) (entry_name : List Nat) : Option Bool :=
  if n.kind = .Directory then some (n.entries.any (fun e => e.name == entry_name)) else none

/-- `Node::push_data_block` (files only; both `assert!`s are failures). -/
def Node.push_data_block (n : Node) (block : Nat) (size : Nat) : Option Node :=
  if n.kind = .File ∧ n.blocks.length < BLOCK_COUNT ∧ n.size ≤ MAX_FILE_SIZE then
    some { n with blocks := n.blocks ++ [block], size := n.size + size }
  else none

/-- `Node::push_directory_entry` (directories only; no name validation). -/
def Node.push_directory_entry (n : Node) (name : List Nat) (block : Nat) : Option Node :=
  if n.kind = .Directory ∧ n.size < ENTRY_COUNT then
    some { n with entries := n.entries ++ [DirectoryEntry.new name block], size := n.size + 1 }
  else none

/-- `Node::get_directory_entry` (directories only; missing entry panics). -/
def Node.get_directory_entry (n : Node) (name : List Nat) : Option DirectoryEntry :=
  if n.kind = .Directory then n.entries.find? (fun e => e.name == name) else none

/-- `Node::delete_directory_entry` (directories only; missing entry panics). -/
def Node.delete_directory_entry (n : Node) (name : List Nat) : Option Node :=
  if n.kind = .Directory then
    match n.entries.findIdx? (fun e => e.name == name) with
    | none => none
    | some i => some { n with entries := n.entries.eraseIdx i, size := n.size - 1 }
  else none

/-- The directory payload: `entries.iter().flat_map(DirectoryEntry::to_le_bytes)`,
where a panic inside any `to_le_bytes` call aborts the whole encoding. -/
def entriesBytes : List DirectoryEntry → Option (List Nat)
  | [] => some []
  | e :: rest =>
    match e.to_le_bytes, entriesBytes rest with
    | some b, some bs => some (b ++ bs)
    | _, _ => none

/-- `Node::to_bytes`: header then payload; the `assert!` bounds the block. -/
def Node.to_bytes (n : Node) : Option (List Nat) :=
  let payload : Option (List Nat) :=
    match n.kind with
    | .Directory => entriesBytes n.entries
    | .File => some (n.blocks.flatMap u64le)
  match payload with
  | none => none
  | some p =>
    let res := n.kind.to_le_bytes ++ u64le n.size ++ u64le n.parent_block_id ++ p
    if res.length ≤ BLOCK_SIZE then some res else none

/-- `[u8]::as_chunks::<8>().0`: the complete 8-byte groups of a byte list;
a trailing group of fewer than 8 bytes is silently dropped. -/
def asChunks8 : List Nat → List (List Nat)
  | b0 :: b1 :: b2 :: b3 :: b4 :: b5 :: b6 :: b7 :: rest =>
    [b0, b1, b2, b3, b4, b5, b6, b7] :: asChunks8 rest
  | _ => []

/-- `Node::from_bytes`: size-bound the buffer, read the three header words,
then decode the payload according to the recovered kind. -/
def Node.from_bytes (bytes : List Nat) : Option Node :=
  if BLOCK_SIZE < bytes.length then none
  else if bytes.length < KIND_SIZE + SIZE_SIZE + BLOCK_INDEX_SIZE then none
  else
    match NodeKind.from_le_bytes (bytes.take KIND_SIZE) with
    | none => none
    | some kind =>
      let size := leToNat ((bytes.drop KIND_SIZE).take SIZE_SIZE)
      let parent := leToNat ((bytes.drop (KIND_SIZE + SIZE_SIZE)).take BLOCK_INDEX_SIZE)
      let payload := bytes.drop (KIND_SIZE + SIZE_SIZE + BLOCK_INDEX_SIZE)
      match kind with
      | .Directory =>
        match DirectoryEntry.from_le_bytes payload with
        | none => none
        | some entries =>
          if entries.length = size then some ⟨.Directory, size, parent, [], entries⟩ else none
      | .File =>
        if size ≤ MAX_FILE_SIZE then
          some ⟨.File, size, parent, (asChunks8 payload).map leToNat, []⟩
        else none

/-! ## Codec lemmas -/

theorem NAME_LEN_eq : NAME_LEN = 1008 := rfl

theorem NAME_LEN_lt_U64 : NAME_LEN < U64 := by norm_num [NAME_LEN_eq, U64]

theorem from_le_bytes_nil : DirectoryEntry.from_le_bytes [] = some [] := by
  rw [DirectoryEntry.from_le_bytes]
  simp

/-- One decoding step on a dense record `name_len ‖ name bytes ‖ block`:
it succeeds (consuming the record) exactly when every name byte is ASCII. -/
theorem from_le_bytes_step (nameBytes : List Nat) (b : Nat) (rest : List Nat)
    (hlen : nameBytes.length ≤ NAME_LEN) (hb : b < U64) :
    DirectoryEntry.from_le_bytes (u64le nameBytes.length ++ (nameBytes ++ (u64le b ++ rest))) =
      if ∀ c ∈ nameBytes, c < 128 then
        (DirectoryEntry.from_le_bytes rest).map (fun es => ⟨nameBytes, b⟩ :: es)
      else none := by
  have h8 : (u64le nameBytes.length).length = NAME_LEN_SIZE := rfl
  have hb8 : (u64le b).length = BLOCK_INDEX_SIZE := rfl
  rw [DirectoryEntry.from_le_bytes]
  rw [dif_neg (by simp [u64le])]
  rw [dif_neg (by simp only [List.length_append, u64le_length, NAME_LEN_SIZE]; omega)]
  simp only [List.take_left' h8, List.drop_left' h8, leToNat_u64le,
    Nat.mod_eq_of_lt (lt_of_le_of_lt hlen NAME_LEN_lt_U64)]
  rw [dif_neg (by omega)]
  rw [dif_neg (by simp only [List.length_append, u64le_length]; omega),
    List.take_left' rfl, List.drop_left' rfl]
  by_cases hascii : ∀ c ∈ nameBytes, c < 128
  · rw [if_pos hascii]
    rw [dif_neg (by rw [byteLen_ascii hascii]; omega)]
    rw [dif_neg (by simp only [List.length_append, u64le_length, BLOCK_INDEX_SIZE]; omega)]
    simp only [List.take_left' hb8, List.drop_left' hb8, leToNat_u64le, Nat.mod_eq_of_lt hb]
    cases DirectoryEntry.from_le_bytes rest <;> simp
  · rw [if_neg hascii]
    rw [dif_pos]
    have : byteLen nameBytes ≠ nameBytes.length := by
      intro h
      exact hascii ((byteLen_eq_length_iff nameBytes).mp h)
    omega

/-- A directory entry as the upload/mkdir path creates it: ASCII name of
byte length at most `NAME_LEN` and a `u64` block id. -/
def DirectoryEntry.ValidAscii (e : DirectoryEntry) : Prop :=
  byteLen e.name ≤ NAME_LEN ∧ (∀ c ∈ e.name, c < 128) ∧ e.block < U64

instance (e : DirectoryEntry) : Decidable e.ValidAscii := by
  unfold DirectoryEntry.ValidAscii
  infer_instance

theorem to_le_bytes_validAscii {e : DirectoryEntry} (h : e.ValidAscii) :
    e.to_le_bytes = some (u64le e.name.length ++ (e.name ++ u64le e.block)) := by
  obtain ⟨hlen, hascii, _⟩ := h
  rw [byteLen_ascii hascii] at hlen
  simp only [DirectoryEntry.to_le_bytes, DirectoryEntry.name_len, byteLen_ascii hascii,
    strBytes_ascii hascii]
  rw [if_pos]
  · simp
  · simp only [List.length_append, u64le_length]
    simp only [DIRECTORY_ENTRY_SIZE, NAME_LEN_SIZE, BLOCK_INDEX_SIZE, NAME_LEN_eq] at *
    omega

/-- Encoding a list of valid ASCII entries succeeds, and decoding the result
(with anything appended) consumes exactly those entries. -/
theorem entriesBytes_ascii {E : List DirectoryEntry} (h : ∀ e ∈ E, e.ValidAscii) :
    ∃ bs, entriesBytes E = some bs ∧
      bs.length = (E.map (fun e => 16 + byteLen e.name)).sum ∧
      ∀ tail, DirectoryEntry.from_le_bytes (bs ++ tail) =
        (DirectoryEntry.from_le_bytes tail).map (E ++ ·) := by
  induction E with
  | nil =>
    refine ⟨[], rfl, rfl, fun tail => ?_⟩
    simp
  | cons e E ih =>
    obtain ⟨bs, hbs, hbslen, hdec⟩ := ih (fun x hx => h x (List.mem_cons_of_mem e hx))
    have he := h e (List.mem_cons_self e E)
    obtain ⟨hlen, hascii, hblk⟩ := he
    refine ⟨u64le e.name.length ++ (e.name ++ u64le e.block) ++ bs, ?_, ?_, fun tail => ?_⟩
    · simp only [entriesBytes, to_le_bytes_validAscii (h e (List.mem_cons_self e E)), hbs]
    · simp only [List.length_append, u64le_length, hbslen, List.map_cons, List.sum_cons,
        byteLen_ascii hascii]
      omega
    · have hassoc :
          u64le e.name.length ++ (e.name ++ u64le e.block) ++ bs ++ tail =
          u64le e.name.length ++ (e.name ++ (u64le e.block ++ (bs ++ tail))) := by
        simp [List.append_assoc]
      rw [hassoc, from_le_bytes_step e.name e.block (bs ++ tail)
        (by rw [← byteLen_ascii hascii]; exact hlen) hblk, if_pos hascii, hdec tail]
      cases DirectoryEntry.from_le_bytes tail <;> simp

theorem kind_from_to (k : NodeKind) : NodeKind.from_le_bytes k.to_le_bytes = some k := by
  cases k <;> rfl

theorem asChunks8_append8 (c X : List Nat) (h : c.length = 8) :
    asChunks8 (c ++ X) = c :: asChunks8 X := by
  match c, h with
  | [b0, b1, b2, b3, b4, b5, b6, b7], _ => rfl

theorem asChunks8_flatMap_u64le (l : List Nat) :
    asChunks8 (l.flatMap u64le) = l.map u64le := by
  induction l with
  | nil => rfl
  | cons a l ih =>
    rw [List.flatMap_cons, asChunks8_append8 _ _ (u64le_length a), ih, List.map_cons]

theorem map_leToNat_u64le (l : List Nat) (h : ∀ x ∈ l, x < U64) :
    (l.map u64le).map leToNat = l := by
  induction l with
  | nil => rfl
  | cons a l ih =>
    simp only [List.map_cons, leToNat_u64le, List.cons.injEq]
    exact ⟨Nat.mod_eq_of_lt (h a (by simp)), ih (fun x hx => h x (by simp [hx]))⟩

theorem asChunks8_length : ∀ (p : List Nat), (asChunks8 p).length = p.length / 8
  | b0 :: b1 :: b2 :: b3 :: b4 :: b5 :: b6 :: b7 :: rest => by
    simp only [asChunks8, List.length_cons, asChunks8_length rest]
    omega
  | [] => by simp [asChunks8]
  | [_] => by simp [asChunks8]
  | [_, _] => by simp [asChunks8]
  | [_, _, _] => by simp [asChunks8]
  | [_, _, _, _] => by simp [asChunks8]
  | [_, _, _, _, _] => by simp [asChunks8]
  | [_, _, _, _, _, _] => by simp [asChunks8]
  | [_, _, _, _, _, _, _] => by simp [asChunks8]

theorem flatMap_u64le_length (l : List Nat) : (l.flatMap u64le).length = 8 * l.length := by
  induction l with
  | nil => rfl
  | cons a l ih =>
    simp only [List.flatMap_cons, List.length_append, u64le_length, ih, List.length_cons]
    omega

/-- `Node::from_bytes` on a buffer with a File header. -/
theorem from_bytes_file (size parent : Nat) (payload : List Nat)
    (hs : size < U64) (hp : parent < U64) (hlen : 24 + payload.length ≤ BLOCK_SIZE) :
    Node.from_bytes (NodeKind.File.to_le_bytes ++ (u64le size ++ (u64le parent ++ payload))) =
      if size ≤ MAX_FILE_SIZE then
        some ⟨.File, size, parent, (asChunks8 payload).map leToNat, []⟩
      else none := by
  have h16 : NodeKind.File.to_le_bytes ++ (u64le size ++ (u64le parent ++ payload)) =
      (NodeKind.File.to_le_bytes ++ u64le size) ++ (u64le parent ++ payload) := by
    rw [List.append_assoc]
  have h24 : NodeKind.File.to_le_bytes ++ (u64le size ++ (u64le parent ++ payload)) =
      ((NodeKind.File.to_le_bytes ++ u64le size) ++ u64le parent) ++ payload := by
    rw [List.append_assoc, List.append_assoc]
  have hTake : (NodeKind.File.to_le_bytes ++ (u64le size ++ (u64le parent ++ payload))).take
      KIND_SIZE = NodeKind.File.to_le_bytes := List.take_left' rfl
  have hDrop8 : (NodeKind.File.to_le_bytes ++ (u64le size ++ (u64le parent ++ payload))).drop
      KIND_SIZE = u64le size ++ (u64le parent ++ payload) := List.drop_left' rfl
  have hDrop16 : (NodeKind.File.to_le_bytes ++ (u64le size ++ (u64le parent ++ payload))).drop
      (KIND_SIZE + SIZE_SIZE) = u64le parent ++ payload := by
    rw [h16]
    exact List.drop_left' rfl
  have hDrop24 : (NodeKind.File.to_le_bytes ++ (u64le size ++ (u64le parent ++ payload))).drop
      (KIND_SIZE + SIZE_SIZE + BLOCK_INDEX_SIZE) = payload := by
    rw [h24]
    exact List.drop_left' rfl
  have hLen : (NodeKind.File.to_le_bytes ++ (u64le size ++ (u64le parent ++ payload))).length =
      24 + payload.length := by
    simp only [List.length_append, u64le_length, NodeKind.to_le_bytes]
    omega
  have hT2 : (u64le size ++ (u64le parent ++ payload)).take SIZE_SIZE = u64le size :=
    List.take_left' rfl
  have hT3 : (u64le parent ++ payload).take BLOCK_INDEX_SIZE = u64le parent :=
    List.take_left' rfl
  simp only [Node.from_bytes, hLen, hTake, hDrop8, hDrop16, hDrop24, kind_from_to, hT2, hT3,
    leToNat_u64le, Nat.mod_eq_of_lt hs, Nat.mod_eq_of_lt hp]
  rw [if_neg (by omega), if_neg (by simp only [KIND_SIZE, SIZE_SIZE, BLOCK_INDEX_SIZE]; omega)]

/-- `Node::from_bytes` on a buffer with a Directory header. -/
theorem from_bytes_directory (size parent : Nat) (payload : List Nat)
    (hs : size < U64) (hp : parent < U64) (hlen : 24 + payload.length ≤ BLOCK_SIZE) :
    Node.from_bytes
        (NodeKind.Directory.to_le_bytes ++ (u64le size ++ (u64le parent ++ payload))) =
      match DirectoryEntry.from_le_bytes payload with
      | none => none
      | some entries =>
        if entries.length = size then some ⟨.Directory, size, parent, [], entries⟩
        else none := by
  have h16 : NodeKind.Directory.to_le_bytes ++ (u64le size ++ (u64le parent ++ payload)) =
      (NodeKind.Directory.to_le_bytes ++ u64le size) ++ (u64le parent ++ payload) := by
    rw [List.append_assoc]
  have h24 : NodeKind.Directory.to_le_bytes ++ (u64le size ++ (u64le parent ++ payload)) =
      ((NodeKind.Directory.to_le_bytes ++ u64le size) ++ u64le parent) ++ payload := by
    rw [List.append_assoc, List.append_assoc]
  have hTake : (NodeKind.Directory.to_le_bytes ++ (u64le size ++ (u64le parent ++ payload))).take
      KIND_SIZE = NodeKind.Directory.to_le_bytes := List.take_left' rfl
  have hDrop8 : (NodeKind.Directory.to_le_bytes ++ (u64le size ++ (u64le parent ++ payload))).drop
      KIND_SIZE = u64le size ++ (u64le parent ++ payload) := List.drop_left' rfl
  have hDrop16 :
      (NodeKind.Directory.to_le_bytes ++ (u64le size ++ (u64le parent ++ payload))).drop
        (KIND_SIZE + SIZE_SIZE) = u64le parent ++ payload := by
    rw [h16]
    exact List.drop_left' rfl
  have hDrop24 :
      (NodeKind.Directory.to_le_bytes ++ (u64le size ++ (u64le parent ++ payload))).drop
        (KIND_SIZE + SIZE_SIZE + BLOCK_INDEX_SIZE) = payload := by
    rw [h24]
    exact List.drop_left' rfl
  have hLen :
      (NodeKind.Directory.to_le_bytes ++ (u64le size ++ (u64le parent ++ payload))).length =
        24 + payload.length := by
    simp only [List.length_append, u64le_length, NodeKind.to_le_bytes]
    omega
  have hT2 : (u64le size ++ (u64le parent ++ payload)).take SIZE_SIZE = u64le size :=
    List.take_left' rfl
  have hT3 : (u64le parent ++ payload).take BLOCK_INDEX_SIZE = u64le parent :=
    List.take_left' rfl
  simp only [Node.from_bytes, hLen, hTake, hDrop8, hDrop16, hDrop24, kind_from_to, hT2, hT3,
    leToNat_u64le, Nat.mod_eq_of_lt hs, Nat.mod_eq_of_lt hp]
  rw [if_neg (by omega), if_neg (by simp only [KIND_SIZE, SIZE_SIZE, BLOCK_INDEX_SIZE]; omega)]

/-- The exact length of `Node::to_bytes` output, when it succeeds. -/
def Node.encodedSize (n : Node) : Nat :=
  24 + match n.kind with
       | .Directory => (n.entries.map (fun e => 16 + byteLen e.name)).sum
       | .File => 8 * n.blocks.length

/-- A node with the structure invariants the Rust construction sites keep:
`u64` fields in range, the field of the other kind unused, declared size
matching the contents, encoding within one block, and (for directories)
ASCII entry names. -/
def Node.ValidAscii (n : Node) : Prop :=
  n.size < U64 ∧ n.parent_block_id < U64 ∧ n.encodedSize ≤ BLOCK_SIZE ∧
  (match n.kind with
   | .Directory => n.blocks = [] ∧ n.size = n.entries.length ∧ ∀ e ∈ n.entries, e.ValidAscii
   | .File => n.entries = [] ∧ n.size ≤ MAX_FILE_SIZE ∧ ∀ b ∈ n.blocks, b < U64)

instance (n : Node) : Decidable n.ValidAscii := by
  unfold Node.ValidAscii
  cases n.kind <;> simp only <;> infer_instance

theorem to_bytes_file_eq (n : Node) (hk : n.kind = .File)
    (hlen : 24 + 8 * n.blocks.length ≤ BLOCK_SIZE) :
    n.to_bytes = some (NodeKind.File.to_le_bytes ++
      (u64le n.size ++ (u64le n.parent_block_id ++ n.blocks.flatMap u64le))) := by
  simp only [Node.to_bytes, hk]
  rw [if_pos]
  · simp [List.append_assoc]
  · simp only [List.length_append, u64le_length, flatMap_u64le_length, NodeKind.to_le_bytes]
    omega

theorem to_bytes_dir_eq (n : Node) (hk : n.kind = .Directory) (p : List Nat)
    (hp : entriesBytes n.entries = some p) (hlen : 24 + p.length ≤ BLOCK_SIZE) :
    n.to_bytes = some (NodeKind.Directory.to_le_bytes ++
      (u64le n.size ++ (u64le n.parent_block_id ++ p))) := by
  simp only [Node.to_bytes, hk, hp]
  rw [if_pos]
  · simp [List.append_assoc]
  · simp only [List.length_append, u64le_length, NodeKind.to_le_bytes]
    omega

/-- Round trip for every structurally valid node with ASCII entry names. -/
theorem node_roundtrip (n : Node) (h : n.ValidAscii) :
    ∃ bs, n.to_bytes = some bs ∧ Node.from_bytes bs = some n := by
  obtain ⟨hsz, hpar, hbound, hrest⟩ := h
  cases hk : n.kind with
  | File =>
    rw [hk] at hrest
    obtain ⟨hent, hmax, hblk⟩ := hrest
    simp only [Node.encodedSize, hk] at hbound
    refine ⟨_, to_bytes_file_eq n hk hbound, ?_⟩
    rw [from_bytes_file n.size n.parent_block_id _ hsz hpar
      (by rw [flatMap_u64le_length]; omega)]
    rw [if_pos hmax, asChunks8_flatMap_u64le, map_leToNat_u64le _ hblk]
    cases n
    simp only at hk hent
    simp [hk, hent]
  | Directory =>
    rw [hk] at hrest
    obtain ⟨hblocks, hsize, hE⟩ := hrest
    simp only [Node.encodedSize, hk] at hbound
    obtain ⟨p, hp, hplen, hpdec⟩ := entriesBytes_ascii hE
    refine ⟨_, to_bytes_dir_eq n hk p hp (by omega), ?_⟩
    rw [from_bytes_directory n.size n.parent_block_id p hsz hpar (by omega)]
    have hdec : DirectoryEntry.from_le_bytes p = some n.entries := by
      have := hpdec []
      rw [List.append_nil] at this
      rw [this, from_le_bytes_nil]
      simp
    rw [hdec]
    simp only [← hsize, if_pos rfl]
    cases n
    simp only at hk hblocks
    simp [hk, hblocks]

theorem strBytes_nonascii {s : List Nat} (hex : ∃ c ∈ s, 128 ≤ c) :
    ∃ b ∈ strBytes s, 128 ≤ b := by
  obtain ⟨c, hc, hge⟩ := hex
  have hmem : ∀ b ∈ encodeChar c, b ∈ strBytes s := by
    intro b hb
    exact List.mem_flatMap.mpr ⟨c, hc, hb⟩
  have hhead : ∃ b ∈ encodeChar c, 128 ≤ b := by
    simp only [encodeChar]
    rw [if_neg (by omega)]
    by_cases h2 : c < 2048
    · rw [if_pos h2]
      exact ⟨192 + c / 64, by simp, by omega⟩
    · rw [if_neg h2]
      by_cases h3 : c < 65536
      · rw [if_pos h3]
        exact ⟨224 + c / 4096, by simp, by omega⟩
      · rw [if_neg h3]
        exact ⟨240 + c / 262144, by simp, by omega⟩
  obtain ⟨b, hb, hbge⟩ := hhead
  exact ⟨b, hmem b hb, hbge⟩

/-- Decoding the encoding of an entry whose name has a non-ASCII character
fails at the rebuilt name-length check, whatever follows the record. -/
theorem from_le_bytes_nonascii (e : DirectoryEntry) (bs tail : List Nat)
    (hlen : byteLen e.name ≤ NAME_LEN) (hblk : e.block < U64)
    (hex : ∃ c ∈ e.name, 128 ≤ c) (henc : e.to_le_bytes = some bs) :
    DirectoryEntry.from_le_bytes (bs ++ tail) = none := by
  rw [DirectoryEntry.to_le_bytes] at henc
  split at henc
  · have hbs : bs = u64le e.name_len ++ strBytes e.name ++ u64le e.block :=
      (Option.some.injEq _ _ ▸ henc).symm
    have hnl : e.name_len = (strBytes e.name).length := rfl
    have hassoc : bs ++ tail =
        u64le (strBytes e.name).length ++ (strBytes e.name ++ (u64le e.block ++ tail)) := by
      rw [hbs, hnl]
      simp [List.append_assoc]
    rw [hassoc, from_le_bytes_step (strBytes e.name) e.block tail
      (by rw [← byteLen]; exact hlen) hblk]
    rw [if_neg]
    intro hall
    obtain ⟨b, hb, hbge⟩ := strBytes_nonascii hex
    exact absurd (hall b hb) (by omega)
  · exact absurd henc (by simp)

/-- **C2 (amended)**: the codec round trip holds for valid nodes and valid
non-empty entry sequences *whose names are ASCII*; the name-length check in
the decoder rejects any non-ASCII name (see the counterexample). -/
theorem claim_C2 :
    (∀ n : Node, n.ValidAscii → ∃ bs, n.to_bytes = some bs ∧ Node.from_bytes bs = some n) ∧
    (∀ E : List DirectoryEntry, E ≠ [] → (∀ e ∈ E, e.ValidAscii) →
      ∃ bs, entriesBytes E = some bs ∧ DirectoryEntry.from_le_bytes bs = some E) := by
  refine ⟨node_roundtrip, fun E _ hE => ?_⟩
  obtain ⟨bs, hbs, _, hdec⟩ := entriesBytes_ascii hE
  refine ⟨bs, hbs, ?_⟩
  have := hdec []
  rw [List.append_nil] at this
  rw [this, from_le_bytes_nil]
  simp

/-- **C2 counterexample**: the single entry with name `"é"` (code point 233,
`name_len = 2` since the UTF-8 encoding is two bytes, well below `NAME_LEN`)
encodes successfully, but decoding the encoding fails instead of returning
the entry, because each stored byte is rebuilt as its own character. -/
theorem claim_C2_counterexample :
    DirectoryEntry.name_len (DirectoryEntry.new [233] 5) = 2 ∧
    entriesBytes [DirectoryEntry.new [233] 5] =
      some [2, 0, 0, 0, 0, 0, 0, 0, 195, 169, 5, 0, 0, 0, 0, 0, 0, 0] ∧
    DirectoryEntry.from_le_bytes [2, 0, 0, 0, 0, 0, 0, 0, 195, 169, 5, 0, 0, 0, 0, 0, 0, 0] =
      none := by
  refine ⟨rfl, rfl, ?_⟩
  have h := from_le_bytes_step [195, 169] 5 []
    (by norm_num [NAME_LEN_eq]) (by norm_num [U64])
  rw [if_neg (by decide)] at h
  exact h

/-- **C2 witness**: a concrete directory node and a concrete entry list
round-trip through the codec. -/
theorem claim_C2_witness :
    (∃ bs, Node.to_bytes ⟨.Directory, 1, 0, [], [⟨[97], 7⟩]⟩ = some bs ∧
      Node.from_bytes bs = some ⟨.Directory, 1, 0, [], [⟨[97], 7⟩]⟩) ∧
    (∃ bs, entriesBytes [⟨[98], 9⟩] = some bs ∧
      DirectoryEntry.from_le_bytes bs = some [⟨[98], 9⟩]) :=
  ⟨claim_C2.1 ⟨.Directory, 1, 0, [], [⟨[97], 7⟩]⟩ (by decide),
   claim_C2.2 [⟨[98], 9⟩] (by decide) (by decide)⟩

/-- **C5 (amended)**: decoding a File node never checks divisibility of the
payload length by 8: the payload is read as its `⌊len / 8⌋` complete 8-byte
little-endian BlockIds and up to seven trailing bytes are silently ignored;
the only failure on a File buffer with a valid header is a declared size
above `MAX_FILE_SIZE`. -/
theorem claim_C5 (size parent : Nat) (payload : List Nat)
    (hs : size < U64) (hp : parent < U64) (hlen : 24 + payload.length ≤ BLOCK_SIZE) :
    Node.from_bytes (NodeKind.File.to_le_bytes ++ (u64le size ++ (u64le parent ++ payload))) =
      (if size ≤ MAX_FILE_SIZE then
        some ⟨.File, size, parent, (asChunks8 payload).map leToNat, []⟩
      else none) ∧
    (asChunks8 payload).length = payload.length / 8 :=
  ⟨from_bytes_file size parent payload hs hp hlen, asChunks8_length payload⟩

/-- **C5 counterexample**: a 25-byte File buffer whose payload is the single
byte `42` (length 1, not divisible by 8) decodes *successfully* to a File
node with no blocks, where the claim says decoding must fail. -/
theorem claim_C5_counterexample :
    Node.from_bytes
        [1, 0, 0, 0, 0, 0, 0, 0,
         0, 0, 0, 0, 0, 0, 0, 0,
         0, 0, 0, 0, 0, 0, 0, 0, 42] =
      some ⟨.File, 0, 0, [], []⟩ := by
  decide

/-- **C5 witness**: the amended File-decode characterisation at a concrete
9-byte payload (one block id and one ignored trailing byte). -/
theorem claim_C5_witness :
    Node.from_bytes (NodeKind.File.to_le_bytes ++
        (u64le 3 ++ (u64le 0 ++ [7, 0, 0, 0, 0, 0, 0, 0, 42]))) =
      (if 3 ≤ MAX_FILE_SIZE then
        some ⟨.File, 3, 0, (asChunks8 [7, 0, 0, 0, 0, 0, 0, 0, 42]).map leToNat, []⟩
      else none) ∧
    (asChunks8 [7, 0, 0, 0, 0, 0, 0, 0, 42]).length = [7, 0, 0, 0, 0, 0, 0, 0, 42].length / 8 :=
  claim_C5 3 0 [7, 0, 0, 0, 0, 0, 0, 0, 42] (by norm_num [U64]) (by norm_num [U64])
    (by decide)

/-- **C9**: the on-wire name format only survives ASCII: a sequence of valid
ASCII entries decodes back exactly, while the encoding of any entry whose
name contains a character with code point at least 128 (whose UTF-8 bytes
are all at least 0x80) makes the decoder fail its rebuilt name-length
check, no matter what follows. -/
theorem claim_C9 :
    (∀ (E : List DirectoryEntry) (bs : List Nat), (∀ e ∈ E, e.ValidAscii) →
      entriesBytes E = some bs → DirectoryEntry.from_le_bytes bs = some E) ∧
    (∀ (e : DirectoryEntry) (bs tail : List Nat), byteLen e.name ≤ NAME_LEN →
      e.block < U64 → (∃ c ∈ e.name, 128 ≤ c) → e.to_le_bytes = some bs →
      DirectoryEntry.from_le_bytes (bs ++ tail) = none) := by
  constructor
  · intro E bs hE henc
    obtain ⟨bs', hbs', _, hdec⟩ := entriesBytes_ascii hE
    rw [henc] at hbs'
    obtain rfl : bs = bs' := by injection hbs'
    have := hdec []
    rw [List.append_nil] at this
    rw [this, from_le_bytes_nil]
    simp
  · intro e bs tail hlen hblk hex henc
    exact from_le_bytes_nonascii e bs tail hlen hblk hex henc

/-- **C9 witness**: both directions at concrete entries. -/
theorem claim_C9_witness :
    DirectoryEntry.from_le_bytes
        [1, 0, 0, 0, 0, 0, 0, 0, 97, 1, 0, 0, 0, 0, 0, 0, 0] =
      some [⟨[97], 1⟩] ∧
    DirectoryEntry.from_le_bytes
        ([2, 0, 0, 0, 0, 0, 0, 0, 195, 169, 5, 0, 0, 0, 0, 0, 0, 0] ++ []) = none :=
  ⟨claim_C9.1 [⟨[97], 1⟩] [1, 0, 0, 0, 0, 0, 0, 0, 97, 1, 0, 0, 0, 0, 0, 0, 0]
     (by decide) (by decide),
   claim_C9.2 ⟨[233], 5⟩ [2, 0, 0, 0, 0, 0, 0, 0, 195, 169, 5, 0, 0, 0, 0, 0, 0, 0] []
     (by decide) (by norm_num [U64]) (by decide) (by decide)⟩

/-- **C10**: `DirectoryEntry::new` (hence `Node::push_directory_entry`)
performs no name-length validation: any name is accepted at entry-creation
time, and the `NAME_LEN` bound is enforced only by `to_le_bytes`, which
fails exactly when the name's byte length exceeds `NAME_LEN = 1008`. -/
theorem claim_C10 :
    (∀ (name : List Nat) (block : Nat),
      DirectoryEntry.new name block = ⟨name, block⟩) ∧
    (∀ (n : Node) (name : List Nat) (block : Nat),
      n.kind = .Directory → n.size < ENTRY_COUNT →
      n.push_directory_entry name block =
        some { n with
               entries := n.entries ++ [DirectoryEntry.new name block],
               size := n.size + 1 }) ∧
    (∀ e : DirectoryEntry, e.to_le_bytes = none ↔ NAME_LEN < byteLen e.name) := by
  refine ⟨fun _ _ => rfl, fun n name block hk hsz => ?_, fun e => ?_⟩
  · rw [Node.push_directory_entry, if_pos ⟨hk, hsz⟩]
  · have hL : (u64le e.name_len ++ strBytes e.name ++ u64le e.block).length =
        16 + byteLen e.name := by
      simp only [List.length_append, u64le_length, byteLen]
      omega
    rw [DirectoryEntry.to_le_bytes]
    by_cases h : NAME_LEN < byteLen e.name
    · rw [if_neg (by
        simp only [hL, DIRECTORY_ENTRY_SIZE, NAME_LEN_SIZE, BLOCK_INDEX_SIZE]
        omega)]
      simp [h]
    · rw [if_pos (by
        simp only [hL, DIRECTORY_ENTRY_SIZE, NAME_LEN_SIZE, BLOCK_INDEX_SIZE]
        simp only [NAME_LEN_eq] at *
        omega)]
      simp [h]

/-- **C10 witness**: pushing a 2000-character name succeeds, while encoding
a 1009-byte name fails. -/
theorem claim_C10_witness :
    Node.push_directory_entry ⟨.Directory, 0, 0, [], []⟩ (List.replicate 2000 97) 3 =
      some ⟨.Directory, 0 + 1, 0, [],
            [] ++ [DirectoryEntry.new (List.replicate 2000 97) 3]⟩ ∧
    DirectoryEntry.to_le_bytes ⟨List.replicate 1009 97, 0⟩ = none :=
  ⟨claim_C10.2.1 ⟨.Directory, 0, 0, [], []⟩ (List.replicate 2000 97) 3 rfl (by decide),
   (claim_C10.2.2 ⟨List.replicate 1009 97, 0⟩).mpr (by decide)⟩

/-! ## C7: characterising the Directory payload decoder -/

/-- Transcription of the claim's description of a decodable payload: a dense
sequence of `name_len ‖ name ‖ block` records with `name_len ≤ NAME_LEN`
and every field complete.  (No ASCII condition — that is the point of the
counterexample.) -/
inductive SpecEntriesFormat : List Nat → List DirectoryEntry → Prop where
  | nil : SpecEntriesFormat [] []
  | cons (nameBytes : List Nat) (b : Nat) (rest : List Nat) (es : List DirectoryEntry) :
      nameBytes.length ≤ NAME_LEN → (∀ x ∈ nameBytes, x < 256) → b < U64 →
      SpecEntriesFormat rest es →
      SpecEntriesFormat (u64le nameBytes.length ++ (nameBytes ++ (u64le b ++ rest)))
        (⟨nameBytes, b⟩ :: es)

/-- The payloads the decoder actually accepts: as `SpecEntriesFormat`, but
every name byte must additionally be ASCII. -/
inductive AsciiEntriesFormat : List Nat → List DirectoryEntry → Prop where
  | nil : AsciiEntriesFormat [] []
  | cons (nameBytes : List Nat) (b : Nat) (rest : List Nat) (es : List DirectoryEntry) :
      nameBytes.length ≤ NAME_LEN → (∀ x ∈ nameBytes, x < 128) → b < U64 →
      AsciiEntriesFormat rest es →
      AsciiEntriesFormat (u64le nameBytes.length ++ (nameBytes ++ (u64le b ++ rest)))
        (⟨nameBytes, b⟩ :: es)

theorem asciiEntriesFormat_decode {bs : List Nat} {es : List DirectoryEntry}
    (h : AsciiEntriesFormat bs es) : DirectoryEntry.from_le_bytes bs = some es := by
  induction h with
  | nil => exact from_le_bytes_nil
  | cons nameBytes b rest es hlen hascii hb _ ih =>
    rw [from_le_bytes_step nameBytes b rest hlen hb, if_pos hascii, ih]
    rfl

theorem decode_asciiEntriesFormat_aux (N : Nat) :
    ∀ (bs : List Nat) (es : List DirectoryEntry), bs.length ≤ N →
      (∀ b ∈ bs, b < 256) → DirectoryEntry.from_le_bytes bs = some es →
      AsciiEntriesFormat bs es := by
  induction N with
  | zero =>
    intro bs es hN _ h
    obtain rfl : bs = [] := List.eq_nil_of_length_eq_zero (by omega)
    rw [from_le_bytes_nil] at h
    injection h with h
    subst h
    exact .nil
  | succ N ih =>
    intro bs es hN hbytes h
    by_cases hnil : bs = []
    · subst hnil
      rw [from_le_bytes_nil] at h
      injection h with h
      subst h
      exact .nil
    rw [DirectoryEntry.from_le_bytes, dif_neg hnil] at h
    by_cases h8 : bs.length < NAME_LEN_SIZE
    · rw [dif_pos h8] at h
      exact absurd h (by simp)
    rw [dif_neg h8] at h
    by_cases hmax : NAME_LEN < leToNat (bs.take NAME_LEN_SIZE)
    · rw [dif_pos hmax] at h
      exact absurd h (by simp)
    rw [dif_neg hmax] at h
    by_cases hln : (bs.drop NAME_LEN_SIZE).length < leToNat (bs.take NAME_LEN_SIZE)
    · rw [dif_pos hln] at h
      exact absurd h (by simp)
    rw [dif_neg hln] at h
    by_cases hchk : leToNat (bs.take NAME_LEN_SIZE) ≠
        byteLen ((bs.drop NAME_LEN_SIZE).take (leToNat (bs.take NAME_LEN_SIZE)))
    · rw [dif_pos hchk] at h
      exact absurd h (by simp)
    rw [dif_neg hchk] at h
    push_neg at hchk
    by_cases hbk : ((bs.drop NAME_LEN_SIZE).drop (leToNat (bs.take NAME_LEN_SIZE))).length <
        BLOCK_INDEX_SIZE
    · rw [dif_pos hbk] at h
      exact absurd h (by simp)
    rw [dif_neg hbk] at h
    have hlen8 : (bs.take NAME_LEN_SIZE).length = 8 := by
      rw [List.length_take]
      simp only [NAME_LEN_SIZE] at *
      omega
    have hname_len : ((bs.drop NAME_LEN_SIZE).take (leToNat (bs.take NAME_LEN_SIZE))).length =
        leToNat (bs.take NAME_LEN_SIZE) := by
      rw [List.length_take]
      omega
    have hascii : ∀ c ∈ (bs.drop NAME_LEN_SIZE).take (leToNat (bs.take NAME_LEN_SIZE)),
        c < 128 := by
      refine (byteLen_eq_length_iff _).mp ?_
      rw [hname_len]
      exact hchk.symm
    have hblen8 :
        (((bs.drop NAME_LEN_SIZE).drop (leToNat (bs.take NAME_LEN_SIZE))).take
          BLOCK_INDEX_SIZE).length = 8 := by
      rw [List.length_take]
      simp only [BLOCK_INDEX_SIZE] at *
      omega
    have hsub1 : ∀ b ∈ bs.take NAME_LEN_SIZE, b < 256 :=
      fun b hb => hbytes b (List.take_subset _ _ hb)
    have hsub2 : ∀ b ∈ bs.drop NAME_LEN_SIZE, b < 256 :=
      fun b hb => hbytes b (List.drop_subset _ _ hb)
    have hsub3 : ∀ b ∈ (bs.drop NAME_LEN_SIZE).drop (leToNat (bs.take NAME_LEN_SIZE)),
        b < 256 := fun b hb => hsub2 b (List.drop_subset _ _ hb)
    have hsub4 : ∀ b ∈ ((bs.drop NAME_LEN_SIZE).drop (leToNat (bs.take NAME_LEN_SIZE))).take
        BLOCK_INDEX_SIZE, b < 256 := fun b hb => hsub3 b (List.take_subset _ _ hb)
    have htake8 : u64le (leToNat (bs.take NAME_LEN_SIZE)) = bs.take NAME_LEN_SIZE :=
      u64le_leToNat _ hlen8 hsub1
    have hblk8 : u64le (leToNat (((bs.drop NAME_LEN_SIZE).drop
          (leToNat (bs.take NAME_LEN_SIZE))).take BLOCK_INDEX_SIZE)) =
        ((bs.drop NAME_LEN_SIZE).drop (leToNat (bs.take NAME_LEN_SIZE))).take
          BLOCK_INDEX_SIZE :=
      u64le_leToNat _ hblen8 hsub4
    have hblkU : leToNat (((bs.drop NAME_LEN_SIZE).drop
          (leToNat (bs.take NAME_LEN_SIZE))).take BLOCK_INDEX_SIZE) < U64 :=
      leToNat_lt_U64 _ (by omega) hsub4
    cases hrec : DirectoryEntry.from_le_bytes (((bs.drop NAME_LEN_SIZE).drop
        (leToNat (bs.take NAME_LEN_SIZE))).drop BLOCK_INDEX_SIZE) with
    | none =>
      rw [hrec] at h
      exact absurd h (by simp)
    | some es' =>
      rw [hrec] at h
      simp only [Option.some.injEq] at h
      subst h
      have hdecomp : bs =
          u64le (((bs.drop NAME_LEN_SIZE).take (leToNat (bs.take NAME_LEN_SIZE))).length) ++
            ((bs.drop NAME_LEN_SIZE).take (leToNat (bs.take NAME_LEN_SIZE)) ++
              (u64le (leToNat (((bs.drop NAME_LEN_SIZE).drop
                  (leToNat (bs.take NAME_LEN_SIZE))).take BLOCK_INDEX_SIZE)) ++
                (((bs.drop NAME_LEN_SIZE).drop
                  (leToNat (bs.take NAME_LEN_SIZE))).drop BLOCK_INDEX_SIZE))) := by
        rw [hname_len, htake8, hblk8]
        rw [List.take_append_drop, List.take_append_drop, List.take_append_drop]
      nth_rewrite 1 [hdecomp]
      refine AsciiEntriesFormat.cons
        ((bs.drop NAME_LEN_SIZE).take (leToNat (bs.take NAME_LEN_SIZE)))
        (leToNat (((bs.drop NAME_LEN_SIZE).drop
          (leToNat (bs.take NAME_LEN_SIZE))).take BLOCK_INDEX_SIZE))
        (((bs.drop NAME_LEN_SIZE).drop (leToNat (bs.take NAME_LEN_SIZE))).drop
          BLOCK_INDEX_SIZE)
        es' ?_ hascii hblkU ?_
      · rw [hname_len]
        omega
      · refine ih _ _ ?_ (fun b hb => hsub3 b (List.drop_subset _ _ hb)) hrec
        simp only [List.length_drop, NAME_LEN_SIZE, BLOCK_INDEX_SIZE] at hN ⊢
        omega

/-- Decoder soundness: a successful decode exhibits the dense ASCII format. -/
theorem decode_asciiEntriesFormat {bs : List Nat} {es : List DirectoryEntry}
    (hbytes : ∀ b ∈ bs, b < 256) (h : DirectoryEntry.from_le_bytes bs = some es) :
    AsciiEntriesFormat bs es :=
  decode_asciiEntriesFormat_aux bs.length bs es le_rfl hbytes h

/-- **C7 (amended)**: decoding a Directory payload succeeds exactly on the
dense well-formed entry sequences whose count matches the declared size
*and whose name bytes are all ASCII*; an oversized `name_len`, a truncated
field, a count mismatch — or a non-ASCII name byte (the condition the claim
omits, see the counterexample) — make it fail. -/
theorem claim_C7 :
    (∀ (bs : List Nat) (es : List DirectoryEntry), (∀ b ∈ bs, b < 256) →
      (DirectoryEntry.from_le_bytes bs = some es ↔ AsciiEntriesFormat bs es)) ∧
    (∀ (size parent : Nat) (payload : List Nat) (n : Node),
      size < U64 → parent < U64 → (∀ b ∈ payload, b < 256) →
      24 + payload.length ≤ BLOCK_SIZE →
      (Node.from_bytes (NodeKind.Directory.to_le_bytes ++
          (u64le size ++ (u64le parent ++ payload))) = some n ↔
        ∃ es, AsciiEntriesFormat payload es ∧ es.length = size ∧
          n = ⟨.Directory, size, parent, [], es⟩)) := by
  constructor
  · intro bs es hbytes
    exact ⟨decode_asciiEntriesFormat hbytes, asciiEntriesFormat_decode⟩
  · intro size parent payload n hs hp hbytes hlen
    rw [from_bytes_directory size parent payload hs hp hlen]
    constructor
    · intro h
      cases hdec : DirectoryEntry.from_le_bytes payload with
      | none => rw [hdec] at h; exact absurd h (by simp)
      | some es =>
        rw [hdec] at h
        replace h : (if es.length = size then
            some (⟨.Directory, size, parent, [], es⟩ : Node) else none) = some n := h
        by_cases hcount : es.length = size
        · rw [if_pos hcount] at h
          injection h with h
          exact ⟨es, decode_asciiEntriesFormat hbytes hdec, hcount, h.symm⟩
        · rw [if_neg hcount] at h
          exact absurd h (by simp)
    · rintro ⟨es, hwf, hcount, rfl⟩
      rw [asciiEntriesFormat_decode hwf]
      show (if es.length = size then
          some (⟨.Directory, size, parent, [], es⟩ : Node) else none) = _
      rw [if_pos hcount]

/-- **C7 counterexample**: a 17-byte payload holding the single entry
`name_len = 1 ‖ name = [0xC3] ‖ block = 0` is a dense well-formed sequence
per the claim's conditions (`name_len ≤ NAME_MAX`, all fields complete,
1 entry = declared size 1), yet `Node::from_bytes` rejects the directory
buffer because the name byte is not ASCII. -/
theorem claim_C7_counterexample :
    SpecEntriesFormat [1, 0, 0, 0, 0, 0, 0, 0, 195, 0, 0, 0, 0, 0, 0, 0, 0]
      [⟨[195], 0⟩] ∧
    ([(⟨[195], 0⟩ : DirectoryEntry)]).length = 1 ∧
    Node.from_bytes (NodeKind.Directory.to_le_bytes ++ (u64le 1 ++ (u64le 0 ++
      [1, 0, 0, 0, 0, 0, 0, 0, 195, 0, 0, 0, 0, 0, 0, 0, 0]))) = none := by
  refine ⟨?_, rfl, ?_⟩
  · exact SpecEntriesFormat.cons [195] 0 [] [] (by decide) (by decide)
      (by norm_num [U64]) SpecEntriesFormat.nil
  · have hdec :
        DirectoryEntry.from_le_bytes [1, 0, 0, 0, 0, 0, 0, 0, 195, 0, 0, 0, 0, 0, 0, 0, 0] =
          none := by
      have h := from_le_bytes_step [195] 0 [] (by decide) (by norm_num [U64])
      rw [if_neg (by decide)] at h
      exact h
    rw [from_bytes_directory 1 0 _ (by norm_num [U64]) (by norm_num [U64]) (by decide), hdec]

/-- **C7 witness**: the decode characterisation at a concrete one-entry
payload and a concrete directory buffer. -/
theorem claim_C7_witness :
    (DirectoryEntry.from_le_bytes [1, 0, 0, 0, 0, 0, 0, 0, 97, 2, 0, 0, 0, 0, 0, 0, 0] =
        some [⟨[97], 2⟩] ↔
      AsciiEntriesFormat [1, 0, 0, 0, 0, 0, 0, 0, 97, 2, 0, 0, 0, 0, 0, 0, 0] [⟨[97], 2⟩]) ∧
    (Node.from_bytes (NodeKind.Directory.to_le_bytes ++ (u64le 1 ++ (u64le 0 ++
        [1, 0, 0, 0, 0, 0, 0, 0, 97, 2, 0, 0, 0, 0, 0, 0, 0]))) =
        some ⟨.Directory, 1, 0, [], [⟨[97], 2⟩]⟩ ↔
      ∃ es, AsciiEntriesFormat [1, 0, 0, 0, 0, 0, 0, 0, 97, 2, 0, 0, 0, 0, 0, 0, 0] es ∧
        es.length = 1 ∧
        (⟨.Directory, 1, 0, [], [⟨[97], 2⟩]⟩ : Node) = ⟨.Directory, 1, 0, [], es⟩) :=
  ⟨claim_C7.1 [1, 0, 0, 0, 0, 0, 0, 0, 97, 2, 0, 0, 0, 0, 0, 0, 0] [⟨[97], 2⟩] (by decide),
   claim_C7.2 1 0 [1, 0, 0, 0, 0, 0, 0, 0, 97, 2, 0, 0, 0, 0, 0, 0, 0]
     ⟨.Directory, 1, 0, [], [⟨[97], 2⟩]⟩ (by norm_num [U64]) (by norm_num [U64])
     (by decide) (by decide)⟩

/-! ## `split_path` (`nodefs.rs`)

Paths are strings of code points; `'/'` is code point 47 and, being ASCII,
byte positions of `'/'` agree with character positions. -/

/-- `str::rfind`: index of the last occurrence, if any. -/
def lastIdxOf (l : List Nat) (x : Nat) : Option Nat :=
  match l with
  | [] => none
  | a :: rest =>
    match lastIdxOf rest x with
    | some k => some (k + 1)
    | none => if a = x then some 0 else none

/-- The slice bound `split_path` searches in. -/
def pathBound (p : List Nat) (allow_dirs require_dir : Bool) : Nat :=
  if require_dir ∨ (allow_dirs ∧ p.getLast? = some 47) then p.length - 1 else p.length

/-- `NodeFS::split_path`; `assert!`s and the `expect` are failures. -/
def split_path (path : List Nat) (allow_dirs require_dir : Bool) :
    Option (List Nat × List Nat) :=
  if require_dir ∧ ¬allow_dirs then none
  else if ¬allow_dirs ∧ path.getLast? = some 47 then none
  else if require_dir ∧ path.getLast? ≠ some 47 then none
  else
    match lastIdxOf (path.take (pathBound path allow_dirs require_dir)) 47 with
    | none => none
    | some k => some (path.take (k + 1), path.drop (k + 1))

theorem lastIdxOf_none_iff (l : List Nat) (x : Nat) : lastIdxOf l x = none ↔ x ∉ l := by
  induction l with
  | nil => simp [lastIdxOf]
  | cons a rest ih =>
    rw [lastIdxOf]
    cases h : lastIdxOf rest x with
    | some k => simp [← ih, h]
    | none =>
      by_cases hax : a = x
      · simp [hax, ← ih, h]
      · simp [hax, ← ih, h, Ne.symm hax]

theorem lastIdxOf_spec (l : List Nat) (x : Nat) (k : Nat) (h : lastIdxOf l x = some k) :
    k < l.length ∧ l[k]? = some x ∧ ∀ j, k < j → j < l.length → l[j]? ≠ some x := by
  induction l generalizing k with
  | nil => simp [lastIdxOf] at h
  | cons a rest ih =>
    rw [lastIdxOf] at h
    cases hr : lastIdxOf rest x with
    | some k' =>
      rw [hr] at h
      injection h with h
      subst h
      obtain ⟨h1, h2, h3⟩ := ih k' hr
      refine ⟨by simp; omega, by simpa using h2, ?_⟩
      intro j hj hjlen
      match j, hj with
      | j' + 1, _ =>
        simp only [List.getElem?_cons_succ]
        exact h3 j' (by omega) (by simp at hjlen; omega)
    | none =>
      rw [hr] at h
      by_cases hax : a = x
      · rw [if_pos hax] at h
        injection h with h
        subst h
        refine ⟨by simp, by simpa using hax, ?_⟩
        intro j hj hjlen
        match j, hj with
        | j' + 1, _ =>
          simp only [List.getElem?_cons_succ]
          intro hget
          have : x ∈ rest := by
            have hlt : j' < rest.length := by simp at hjlen; omega
            have := List.getElem?_eq_some_iff.mp hget
            obtain ⟨hh, hgg⟩ := this
            exact hgg ▸ List.getElem_mem hh
          exact absurd this ((lastIdxOf_none_iff rest x).mp hr)
      · rw [if_neg hax] at h
        exact absurd h (by simp)

theorem getLast?_take_of_mem (p : List Nat) (k : Nat) (hk : k < p.length)
    (hget : p[k]? = some 47) : (p.take (k + 1)).getLast? = some 47 := by
  have hlen : (p.take (k + 1)).length = k + 1 := by
    rw [List.length_take]
    omega
  rw [List.getLast?_eq_getElem?, hlen]
  simp only [Nat.add_sub_cancel]
  rw [List.getElem?_take, if_pos (by omega)]
  exact hget

theorem getLast?_drop_lt (p : List Nat) (m : Nat) (hm : m < p.length) :
    (p.drop m).getLast? = p.getLast? := by
  rw [List.getLast?_eq_getElem?, List.getLast?_eq_getElem?, List.getElem?_drop,
    List.length_drop]
  congr 1
  omega

/-- **C8**: the failure conditions and the split-after-last-slash behaviour
of `split_path`, exactly as the claim states them. -/
theorem claim_C8 :
    (∀ p : List Nat, split_path p false true = none) ∧
    (∀ (p : List Nat) (ad : Bool), p.getLast? ≠ some 47 → split_path p ad true = none) ∧
    (∀ (p : List Nat) (rd : Bool), p.getLast? = some 47 → split_path p false rd = none) ∧
    (∀ (p : List Nat) (ad rd : Bool), 47 ∉ p.take (pathBound p ad rd) →
      split_path p ad rd = none) ∧
    split_path [47] true true = none ∧
    (∀ (p : List Nat) (ad rd : Bool) (pre leaf : List Nat),
      split_path p ad rd = some (pre, leaf) →
      ∃ k, k < pathBound p ad rd ∧ p[k]? = some 47 ∧
        (∀ j, k < j → j < pathBound p ad rd → p[j]? ≠ some 47) ∧
        pre = p.take (k + 1) ∧ leaf = p.drop (k + 1) ∧ pre ++ leaf = p ∧
        pre.getLast? = some 47 ∧
        (p.getLast? = some 47 → leaf.getLast? = some 47)) ∧
    (∀ (p : List Nat) (ad rd : Bool), (rd = true → ad = true) →
      (rd = true → p.getLast? = some 47) → (ad = false → p.getLast? ≠ some 47) →
      47 ∈ p.take (pathBound p ad rd) → (split_path p ad rd).isSome = true) := by
  refine ⟨?_, ?_, ?_, ?_, ?_, ?_, ?_⟩
  · intro p
    rw [split_path, if_pos (by simp)]
  · intro p ad hend
    rw [split_path]
    by_cases had : ad = true
    · subst had
      rw [if_neg (by simp), if_neg (by simp [hend]), if_pos (by simp [hend])]
    · rw [if_pos (by simp [Bool.eq_false_iff.mpr had])]
  · intro p rd hend
    rw [split_path]
    by_cases hrd : rd = true
    · subst hrd
      rw [if_pos (by simp)]
    · rw [if_neg (by simp [Bool.eq_false_iff.mpr hrd]),
        if_pos (by simp [hend, Bool.eq_false_iff.mpr hrd])]
  · intro p ad rd hmem
    rw [split_path]
    rw [(lastIdxOf_none_iff _ _).mpr hmem]
    split
    · rfl
    split
    · rfl
    split
    · rfl
    rfl
  · rw [split_path, if_neg (by simp), if_neg (by simp), if_neg (by simp)]
    rfl
  · intro p ad rd pre leaf h
    rw [split_path] at h
    by_cases hc1 : (rd = true) ∧ ¬(ad = true)
    · rw [if_pos hc1] at h
      exact absurd h (by simp)
    rw [if_neg hc1] at h
    by_cases hc2 : ¬(ad = true) ∧ p.getLast? = some 47
    · rw [if_pos hc2] at h
      exact absurd h (by simp)
    rw [if_neg hc2] at h
    by_cases hc3 : (rd = true) ∧ p.getLast? ≠ some 47
    · rw [if_pos hc3] at h
      exact absurd h (by simp)
    rw [if_neg hc3] at h
    cases hlast : lastIdxOf (p.take (pathBound p ad rd)) 47 with
    | none =>
      rw [hlast] at h
      exact absurd h (by simp)
    | some k =>
      rw [hlast] at h
      injection h with h
      obtain ⟨rfl, rfl⟩ : pre = p.take (k + 1) ∧ leaf = p.drop (k + 1) := by
        constructor <;> [exact (congrArg Prod.fst h).symm; exact (congrArg Prod.snd h).symm]
      obtain ⟨hk, hget, hafter⟩ := lastIdxOf_spec _ _ _ hlast
      have hbound_le : pathBound p ad rd ≤ p.length := by
        rw [pathBound]
        split <;> omega
      rw [List.length_take] at hk
      have hklen : k < p.length := by omega
      have hkb : k < pathBound p ad rd := by omega
      have hgetp : p[k]? = some 47 := by
        rw [List.getElem?_take, if_pos hkb] at hget
        exact hget
      refine ⟨k, hkb, hgetp, ?_, rfl, rfl, List.take_append_drop _ _,
        getLast?_take_of_mem p k hklen hgetp, ?_⟩
      · intro j hj hjb
        have := hafter j hj (by rw [List.length_take]; omega)
        rw [List.getElem?_take, if_pos hjb] at this
        exact this
      · intro hend
        have had : ad = true := by
          rcases Bool.eq_false_or_eq_true ad with ht | hf
          · exact ht
          · exact absurd ⟨by simp [hf], hend⟩ hc2
        have hbound_eq : pathBound p ad rd = p.length - 1 := by
          rw [pathBound, if_pos (Or.inr ⟨had, hend⟩)]
        have hpos : p ≠ [] := by
          intro hnil
          rw [hnil] at hend
          simp at hend
        have hlen1 : 1 ≤ p.length := List.length_pos.mpr hpos
        have hkb' : k + 1 < p.length := by
          rw [hbound_eq] at hkb
          omega
        rw [getLast?_drop_lt p (k + 1) hkb']
        exact hend
  · intro p ad rd h1 h2 h3 hmem
    rw [split_path]
    have hnone : lastIdxOf (p.take (pathBound p ad rd)) 47 ≠ none := by
      intro hx
      exact absurd hmem ((lastIdxOf_none_iff _ _).mp hx)
    rw [if_neg ?ha, if_neg ?hb, if_neg ?hc]
    case ha =>
      rintro ⟨hrd, had⟩
      exact absurd (h1 hrd) (by simpa using had)
    case hb =>
      rintro ⟨had, hend⟩
      exact absurd hend (h3 (by simpa using had))
    case hc =>
      rintro ⟨hrd, hend⟩
      exact absurd (h2 hrd) hend
    cases hlast : lastIdxOf (p.take (pathBound p ad rd)) 47 with
    | none => exact absurd hlast hnone
    | some k => rfl

/-- **C8 witness**: splitting the concrete path `"/a/b"` (`allow_dirs`,
no `require_dir`) and a failing `require_dir` call on `"/b"`. -/
theorem claim_C8_witness :
    (∃ k, k < pathBound [47, 97, 47, 98] true false ∧
      ([47, 97, 47, 98] : List Nat)[k]? = some 47 ∧
      (∀ j, k < j → j < pathBound [47, 97, 47, 98] true false →
        ([47, 97, 47, 98] : List Nat)[j]? ≠ some 47) ∧
      [47, 97, 47] = List.take (k + 1) [47, 97, 47, 98] ∧
      [98] = List.drop (k + 1) [47, 97, 47, 98] ∧
      [47, 97, 47] ++ [98] = [47, 97, 47, 98] ∧
      ([47, 97, 47] : List Nat).getLast? = some 47 ∧
      (([47, 97, 47, 98] : List Nat).getLast? = some 47 →
        ([98] : List Nat).getLast? = some 47)) ∧
    split_path [47, 98] true true = none :=
  ⟨claim_C8.2.2.2.2.2.1 [47, 97, 47, 98] true false [47, 97, 47] [98] (by decide),
   claim_C8.2.1 [47, 98] true (by decide)⟩

/-! ## Reading back a stored encoding

The node getters of `nodefs.rs` do not return the structure that was
written: they read the stored bytes and run `Node::from_bytes` on them.
The lemmas here characterise that second decoding: what an encoding looks
like, and that a successful re-decode always yields a canonical
(`ValidAscii`) node. -/

theorem MAX_lt_U64 : MAX_FILE_SIZE < U64 := by decide

theorem U64_pos : 0 < U64 := by norm_num [U64]

/-- `u64::to_le_bytes` only sees the low 64 bits. -/
theorem u64le_mod (n : Nat) : u64le n = u64le (n % U64) := by
  simp only [u64le, U64, List.cons.injEq, and_true]
  refine ⟨by omega, by omega, by omega, by omega, by omega, by omega, by omega, by omega⟩

theorem to_le_bytes_some {e : DirectoryEntry} {bs : List Nat}
    (h : e.to_le_bytes = some bs) :
    bs = u64le (byteLen e.name) ++ (strBytes e.name ++ u64le e.block) ∧
      byteLen e.name ≤ NAME_LEN := by
  rw [DirectoryEntry.to_le_bytes] at h
  split at h
  · rename_i hle
    simp only [Option.some.injEq] at h
    subst h
    refine ⟨by simp [DirectoryEntry.name_len, List.append_assoc], ?_⟩
    simp only [List.length_append, u64le_length, DIRECTORY_ENTRY_SIZE, NAME_LEN_SIZE,
      BLOCK_INDEX_SIZE, NAME_LEN_eq, DirectoryEntry.name_len, byteLen] at hle ⊢
    omega
  · exact absurd h (by simp)

theorem entriesBytes_some_bound {E : List DirectoryEntry} {p : List Nat}
    (h : entriesBytes E = some p) : ∀ e ∈ E, byteLen e.name ≤ NAME_LEN := by
  induction E generalizing p with
  | nil =>
    intro e he
    simp at he
  | cons a E ih =>
    intro e he
    cases hta : a.to_le_bytes with
    | none =>
      simp only [entriesBytes, hta] at h
      exact absurd h (by simp)
    | some b1 =>
      cases hte : entriesBytes E with
      | none =>
        simp only [entriesBytes, hta, hte] at h
        exact absurd h (by simp)
      | some p' =>
        rcases List.mem_cons.mp he with rfl | hm
        · exact (to_le_bytes_some hta).2
        · exact ih hte e hm

/-- The length of a successful directory payload encoding: 16 bytes of
framing plus the name bytes, per entry. -/
theorem entriesBytes_length {E : List DirectoryEntry} :
    ∀ {p : List Nat}, entriesBytes E = some p →
      p.length = (E.map (fun e => 16 + byteLen e.name)).sum := by
  induction E with
  | nil =>
    intro p h
    obtain rfl : p = [] := by simpa [entriesBytes] using h
    simp
  | cons a E ih =>
    intro p h
    cases hta : a.to_le_bytes with
    | none =>
      simp only [entriesBytes, hta] at h
      exact absurd h (by simp)
    | some b1 =>
      cases hte : entriesBytes E with
      | none =>
        simp only [entriesBytes, hta, hte] at h
        exact absurd h (by simp)
      | some p' =>
        have hp : p = b1 ++ p' := by
          simp only [entriesBytes, hta, hte, Option.some.injEq] at h
          exact h.symm
        obtain ⟨hb1, -⟩ := to_le_bytes_some hta
        subst hp
        simp only [List.length_append, List.map_cons, List.sum_cons, ih hte, hb1,
          u64le_length]
        rw [show (strBytes a.name).length = byteLen a.name from rfl]
        omega

/-- Smart constructor for `ValidAscii` at a directory node. -/
theorem validAscii_dir {n : Node} (hk : n.kind = .Directory)
    (h1 : n.size < U64) (h2 : n.parent_block_id < U64)
    (h3 : n.encodedSize ≤ BLOCK_SIZE) (h4 : n.blocks = [])
    (h5 : n.size = n.entries.length) (h6 : ∀ e ∈ n.entries, e.ValidAscii) :
    n.ValidAscii := by
  refine ⟨h1, h2, h3, ?_⟩
  rw [hk]
  exact ⟨h4, h5, h6⟩

theorem to_bytes_some_file {n : Node} {bs : List Nat} (hk : n.kind = .File)
    (h : n.to_bytes = some bs) :
    bs = NodeKind.File.to_le_bytes ++
      (u64le n.size ++ (u64le n.parent_block_id ++ n.blocks.flatMap u64le)) ∧
      24 + 8 * n.blocks.length ≤ BLOCK_SIZE := by
  by_cases hle : 24 + 8 * n.blocks.length ≤ BLOCK_SIZE
  · rw [to_bytes_file_eq n hk hle] at h
    simp only [Option.some.injEq] at h
    exact ⟨h.symm, hle⟩
  · exfalso
    have hnone : n.to_bytes = none := by
      simp only [Node.to_bytes, hk]
      rw [if_neg]
      simp only [List.length_append, u64le_length, flatMap_u64le_length,
        NodeKind.to_le_bytes]
      omega
    rw [hnone] at h
    exact absurd h (by simp)

theorem to_bytes_some_dir {n : Node} {bs : List Nat} (hk : n.kind = .Directory)
    (h : n.to_bytes = some bs) :
    ∃ p, entriesBytes n.entries = some p ∧
      bs = NodeKind.Directory.to_le_bytes ++
        (u64le n.size ++ (u64le n.parent_block_id ++ p)) ∧
      24 + p.length ≤ BLOCK_SIZE := by
  cases hp : entriesBytes n.entries with
  | none =>
    have hnone : n.to_bytes = none := by
      simp only [Node.to_bytes, hk, hp]
    rw [hnone] at h
    exact absurd h (by simp)
  | some p =>
    by_cases hle : 24 + p.length ≤ BLOCK_SIZE
    · rw [to_bytes_dir_eq n hk p hp hle] at h
      simp only [Option.some.injEq] at h
      exact ⟨p, rfl, h.symm, hle⟩
    · exfalso
      have hnone : n.to_bytes = none := by
        simp only [Node.to_bytes, hk, hp]
        rw [if_neg]
        simp only [List.length_append, u64le_length, NodeKind.to_le_bytes]
        omega
      rw [hnone] at h
      exact absurd h (by simp)

/-- When an encoded entry sequence decodes, the decoded entries are
canonical — ASCII names within the length bound and `u64` blocks — and
account for the whole payload. -/
theorem entriesBytes_decode_valid {E : List DirectoryEntry} :
    ∀ {p : List Nat} {es : List DirectoryEntry},
      entriesBytes E = some p → DirectoryEntry.from_le_bytes p = some es →
      (∀ e ∈ es, e.ValidAscii) ∧
        (es.map (fun e => 16 + byteLen e.name)).sum = p.length := by
  induction E with
  | nil =>
    intro p es henc hdec
    obtain rfl : p = [] := by simpa [entriesBytes] using henc
    rw [from_le_bytes_nil] at hdec
    obtain rfl : es = [] := by simpa using hdec
    simp
  | cons a E ih =>
    intro p es henc hdec
    cases hta : a.to_le_bytes with
    | none =>
      simp only [entriesBytes, hta] at henc
      exact absurd henc (by simp)
    | some b1 =>
      cases hte : entriesBytes E with
      | none =>
        simp only [entriesBytes, hta, hte] at henc
        exact absurd henc (by simp)
      | some p' =>
        have hp : p = b1 ++ p' := by
          simp only [entriesBytes, hta, hte, Option.some.injEq] at henc
          exact henc.symm
        obtain ⟨hb1, hbound⟩ := to_le_bytes_some hta
        subst hp
        rw [hb1] at hdec
        have hassoc : (u64le (byteLen a.name) ++ (strBytes a.name ++ u64le a.block)) ++ p' =
            u64le (strBytes a.name).length ++
              (strBytes a.name ++ (u64le (a.block % U64) ++ p')) := by
          rw [← u64le_mod]
          simp [List.append_assoc, byteLen]
        rw [hassoc, from_le_bytes_step (strBytes a.name) (a.block % U64) p'
          (by rw [show (strBytes a.name).length = byteLen a.name from rfl]; exact hbound)
          (Nat.mod_lt _ U64_pos)] at hdec
        by_cases hascii : ∀ c ∈ strBytes a.name, c < 128
        · rw [if_pos hascii] at hdec
          cases hrec : DirectoryEntry.from_le_bytes p' with
          | none =>
            rw [hrec] at hdec
            exact absurd hdec (by simp)
          | some es' =>
            rw [hrec] at hdec
            simp only [Option.map_some', Option.some.injEq] at hdec
            subst hdec
            obtain ⟨ihv, ihs⟩ := ih hte hrec
            constructor
            · intro e hme
              rcases List.mem_cons.mp hme with rfl | hm
              · refine ⟨?_, hascii, Nat.mod_lt _ U64_pos⟩
                rw [byteLen_ascii hascii]
                exact hbound
              · exact ihv e hm
            · simp only [List.map_cons, List.sum_cons, ihs, hb1, List.length_append,
                u64le_length]
              rw [byteLen_ascii hascii]
              omega
        · rw [if_neg hascii] at hdec
          exact absurd hdec (by simp)

/-- Re-decoding any stored encoding, when it succeeds, yields a canonical
node: re-encoding and re-decoding it again round-trips. -/
theorem decode_of_encode_validAscii {n m : Node} {bs : List Nat}
    (htb : n.to_bytes = some bs) (hfb : Node.from_bytes bs = some m) :
    m.ValidAscii := by
  cases hk : n.kind with
  | File =>
    obtain ⟨hbseq, hlen⟩ := to_bytes_some_file hk htb
    rw [hbseq, u64le_mod n.size, u64le_mod n.parent_block_id,
      from_bytes_file _ _ _ (Nat.mod_lt _ U64_pos) (Nat.mod_lt _ U64_pos)
        (by rw [flatMap_u64le_length]; omega)] at hfb
    split at hfb
    · rename_i hmax
      simp only [Option.some.injEq] at hfb
      subst hfb
      refine ⟨Nat.mod_lt _ U64_pos, Nat.mod_lt _ U64_pos, ?_, rfl, hmax, ?_⟩
      · simp only [Node.encodedSize, asChunks8_flatMap_u64le, List.length_map]
        omega
      · rw [asChunks8_flatMap_u64le, List.map_map]
        intro b hb
        simp only [List.mem_map] at hb
        obtain ⟨x, -, hx⟩ := hb
        rw [← hx]
        simp only [Function.comp_apply, leToNat_u64le]
        exact Nat.mod_lt _ U64_pos
    · exact absurd hfb (by simp)
  | Directory =>
    obtain ⟨p, hp, hbseq, hlen⟩ := to_bytes_some_dir hk htb
    rw [hbseq, u64le_mod n.size, u64le_mod n.parent_block_id,
      from_bytes_directory _ _ _ (Nat.mod_lt _ U64_pos) (Nat.mod_lt _ U64_pos) hlen] at hfb
    cases hdec : DirectoryEntry.from_le_bytes p with
    | none =>
      rw [hdec] at hfb
      exact absurd hfb (by simp)
    | some es =>
      rw [hdec] at hfb
      have hfb2 : (if es.length = n.size % U64 then
          some (⟨.Directory, n.size % U64, n.parent_block_id % U64, [], es⟩ : Node)
          else none) = some m := hfb
      by_cases hcount : es.length = n.size % U64
      · rw [if_pos hcount] at hfb2
        simp only [Option.some.injEq] at hfb2
        subst hfb2
        obtain ⟨hv, hsum⟩ := entriesBytes_decode_valid hp hdec
        refine ⟨Nat.mod_lt _ U64_pos, Nat.mod_lt _ U64_pos, ?_, rfl, hcount.symm, hv⟩
        simp only [Node.encodedSize, hsum]
        omega
      · rw [if_neg hcount] at hfb2
        exact absurd hfb2 (by simp)

/-! ## The `NodeFS` state machine (`nodefs.rs`)

The remote channel is an append-only list of blobs; a message id is the
1-based position of the blob, so ids are assigned monotonically and id `0`
(the "no parent" sentinel) is never a real block.  A stored node block
`Blk.node n` stands for the attachment `n.to_bytes` — every write checks
that this encoding exists — and the node getters, like the ones in
`nodefs.rs`, do not hand back the structure that was written: they decode
the stored bytes with `Node::from_bytes`, and a panic in that decoding is
failure.  Data blocks are raw byte strings, read back verbatim.  The AEAD
cipher (`aes_gcm_siv`, an external crate) is a parameter: `cipherOf k`
stands for `Aes256GcmSiv::new_from_slice(k)` for a 32-byte key `k`. -/

/-- `NonceCounter::get_nonce` at counter value `c`: four zero bytes followed
by `c` little-endian (`nonce_counter.rs`). -/
def nonceBytes (c : Nat) : List Nat := [0, 0, 0, 0] ++ u64le c

structure Cipher where
  enc : List Nat → List Nat → List Nat
  dec : List Nat → List Nat → Option (List Nat)

inductive Blk where
  | node (n : Node)
  | data (bytes : List Nat)
deriving DecidableEq

structure FS where
  store : List Blk
  root_node_id : Nat
deriving DecidableEq

/-- Read the attachment of message `id` (`util::read_attachment` fails on a
missing message; id 0 is never assigned). -/
def FS.getBlk (fs : FS) (id : Nat) : Option Blk :=
  if id = 0 then none else fs.store[id - 1]?

/-- Replace the attachment of message `id` (`util::edit_message`). -/
def FS.setBlk (fs : FS) (id : Nat) (b : Blk) : FS :=
  ⟨fs.store.set (id - 1) b, fs.root_node_id⟩

/-- `util::send_message`: append a blob, return the fresh id. -/
def FS.send (fs : FS) (b : Blk) : FS × Nat :=
  (⟨fs.store ++ [b], fs.root_node_id⟩, fs.store.length + 1)

/-- `NodeFS::get_node`: read the stored attachment (the encoding of the
stored node) and run `Node::from_bytes` on it; no kind check. -/
def get_node (fs : FS) (id : Nat) : Option Node :=
  match fs.getBlk id with
  | some (.node n) => (n.to_bytes).bind Node.from_bytes
  | _ => none

/-- `NodeFS::get_directory_node`: decode the stored bytes, then assert the
decoded node is a directory. -/
def get_directory_node (fs : FS) (id : Nat) : Option Node :=
  match fs.getBlk id with
  | some (.node n) =>
    ((n.to_bytes).bind Node.from_bytes).bind fun m =>
      if m.kind = .Directory then some m else none
  | _ => none

/-- `NodeFS::get_file_node`: decode the stored bytes, then assert the
decoded node is a file. -/
def get_file_node (fs : FS) (id : Nat) : Option Node :=
  match fs.getBlk id with
  | some (.node n) =>
    ((n.to_bytes).bind Node.from_bytes).bind fun m =>
      if m.kind = .File then some m else none
  | _ => none

/-- `NodeFS::get_root_directory_node`. -/
def get_root_directory_node (fs : FS) : Option Node :=
  match fs.getBlk fs.root_node_id with
  | some (.node n) =>
    ((n.to_bytes).bind Node.from_bytes).bind fun m =>
      if m.kind = .Directory then some m else none
  | _ => none

/-- `NodeFS::create_directory_node`: encode (checking the size assert) and
send an empty directory node. -/
def create_directory_node (fs : FS) (parent : Nat) : Option (Node × Nat × FS) :=
  let n := Node.new .Directory parent
  match n.to_bytes with
  | none => none
  | some _ => some (n, fs.store.length + 1, ⟨fs.store ++ [.node n], fs.root_node_id⟩)

/-- `NodeFS::create_file_node`. -/
def create_file_node (fs : FS) (parent : Nat) : Option (Node × Nat × FS) :=
  let n := Node.new .File parent
  match n.to_bytes with
  | none => none
  | some _ => some (n, fs.store.length + 1, ⟨fs.store ++ [.node n], fs.root_node_id⟩)

/-- `NodeFS::edit_directory_node`. -/
def edit_directory_node (fs : FS) (id : Nat) (n : Node) : Option FS :=
  if n.kind = .Directory then
    match n.to_bytes, fs.getBlk id with
    | some _, some _ => some (fs.setBlk id (.node n))
    | _, _ => none
  else none

/-- `NodeFS::edit_file_node`. -/
def edit_file_node (fs : FS) (id : Nat) (n : Node) : Option FS :=
  if n.kind = .File then
    match n.to_bytes, fs.getBlk id with
    | some _, some _ => some (fs.setBlk id (.node n))
    | _, _ => none
  else none

/-- `NodeFS::create_data_block`. -/
def create_data_block (fs : FS) (bytes : List Nat) : FS × Nat :=
  FS.send fs (.data bytes)

/-- `NodeFS::get_data_block`. -/
def get_data_block (fs : FS) (id : Nat) : Option (List Nat) :=
  match fs.getBlk id with
  | some (.data bs) => some bs
  | _ => none

/-- `str::split_inclusive('/')`: split after every separator, each segment
keeping its trailing separator. -/
def splitInc (sep : Nat) : List Nat → List (List Nat)
  | [] => []
  | c :: rest =>
    if c = sep then [c] :: splitInc sep rest
    else
      match splitInc sep rest with
      | [] => [[c]]
      | s :: ss => (c :: s) :: ss

/-- The intermediate-segment loop of `NodeFS::traverse_path`: look up each
(nonempty) segment in the current directory and descend. -/
def traverseFrom (fs : FS) : Node → List (List Nat) → Option Node
  | dir, [] => some dir
  | dir, seg :: rest =>
    if seg = [] then none
    else
      (dir.get_directory_entry seg).bind fun e =>
      (get_directory_node fs e.block).bind fun d =>
      traverseFrom fs d rest

/-- `NodeFS::traverse_path`. -/
def traverse_path (fs : FS) (path : List Nat) : Option (Node × Nat) :=
  if path.head? ≠ some 47 then none
  else if path = [47] then
    (get_root_directory_node fs).bind fun r =>
    some (r, fs.root_node_id)
  else
    match splitInc 47 path with
    | [] => none
    | s :: ss =>
      (get_root_directory_node fs).bind fun root =>
      (traverseFrom fs root ((s :: ss).dropLast.drop 1)).bind fun d =>
      (d.get_directory_entry ((s :: ss).getLast (by simp))).bind fun e =>
      if ((s :: ss).getLast (by simp)).getLast? = some 47 then
        (get_directory_node fs e.block).bind fun dn =>
        some (dn, e.block)
      else
        (get_file_node fs e.block).bind fun fn =>
        some (fn, e.block)

/-- The remote calls an upload issues, in order. -/
inductive Event where
  | sendNode
  | sendData
  | editDir
  | editFile
deriving DecidableEq

/-- The plaintext chunks of a byte string: `BLOCK_SIZE`-sized pieces, the
last one possibly shorter. -/
def chunks (l : List Nat) : List (List Nat) :=
  if l = [] then [] else l.take BLOCK_SIZE :: chunks (l.drop BLOCK_SIZE)
termination_by l.length
decreasing_by
  rename_i hne
  have : 0 < l.length := List.length_pos.mpr hne
  simp only [List.length_drop, BLOCK_SIZE]
  omega

/-- The upload loop of `NodeFS::__upload`: whilst bytes remain, read a chunk
of at most `BLOCK_SIZE` bytes, encrypt it with the next nonce, send it as a
data block and record `(id, plaintext len)` in the file node. -/
def uploadLoop (c : Cipher) (fs : FS) (file_node : Node) (nonce : Nat) (rest : List Nat) :
    Option (FS × Node × List Event) :=
  if rest = [] then some (fs, file_node, [])
  else
    match file_node.push_data_block
        (create_data_block fs (c.enc (nonceBytes nonce) (rest.take BLOCK_SIZE))).2
        (rest.take BLOCK_SIZE).length with
    | none => none
    | some fn' =>
      match uploadLoop c
          (create_data_block fs (c.enc (nonceBytes nonce) (rest.take BLOCK_SIZE))).1
          fn' (nonce + 1) (rest.drop BLOCK_SIZE) with
      | none => none
      | some (fs'', fn'', tr) => some (fs'', fn'', Event.sendData :: tr)
termination_by rest.length
decreasing_by
  rename_i hne
  have : 0 < rest.length := List.length_pos.mpr hne
  simp only [List.length_drop, BLOCK_SIZE]
  omega

/-- `NodeFS::__upload`.  `source` is the byte string of the local source
file; the returned trace lists the remote calls in program order. -/
def upload (cipherOf : List Nat → Cipher) (fs : FS) (source : List Nat)
    (destination : List Nat) (key : List Nat) : Option (FS × Nat × List Event) :=
  if MAX_FILE_SIZE < source.length then none
  else
    (split_path destination false false).bind fun fpn =>
    (traverse_path fs fpn.1).bind fun dn =>
    (dn.1.is_full).bind fun full =>
    if full then none
    else
      (dn.1.contains_entry fpn.2).bind fun cont =>
      if cont then none
      else
        (create_file_node fs dn.2).bind fun cf =>
        if byteLen key < 32 then none
        else
          (uploadLoop (cipherOf ((strBytes key).take 32)) cf.2.2 cf.1 0 source).bind fun ul =>
          (dn.1.push_directory_entry fpn.2 cf.2.1).bind fun dir' =>
          (edit_directory_node ul.1 dn.2 dir').bind fun fs₃ =>
          (edit_file_node fs₃ cf.2.1 ul.2.1).bind fun fs₄ =>
          some (fs₄, cf.2.1, Event.sendNode :: ul.2.2 ++ [Event.editDir, Event.editFile])

/-- The download loop of `NodeFS::__download`: read each data block in file
order and decrypt it with the next nonce. -/
def downLoop (c : Cipher) (fs : FS) (nonce : Nat) : List Nat → Option (List Nat)
  | [] => some []
  | bid :: rest =>
    match get_data_block fs bid with
    | none => none
    | some block =>
      match c.dec (nonceBytes nonce) block with
      | none => none
      | some pt =>
        match downLoop c fs (nonce + 1) rest with
        | none => none
        | some out => some (pt ++ out)

/-- `NodeFS::__download`, returning the bytes written to the destination. -/
def download (cipherOf : List Nat → Cipher) (fs : FS) (source : List Nat)
    (key : List Nat) : Option (List Nat) :=
  (traverse_path fs source).bind fun sn =>
  if sn.1.kind = .Directory then none
  else if byteLen key < 32 then none
  else downLoop (cipherOf ((strBytes key).take 32)) fs 0 sn.1.blocks

/-- `NodeFS::mkdir`. -/
def mkdir (fs : FS) (path : List Nat) : Option FS :=
  (split_path path true true).bind fun tpn =>
  (traverse_path fs tpn.1).bind fun dn =>
  (dn.1.is_full).bind fun full =>
  if full then none
  else
    (dn.1.contains_entry tpn.2).bind fun cont =>
    if cont then none
    else
      (create_directory_node fs dn.2).bind fun cd =>
      (dn.1.push_directory_entry tpn.2 cd.2.1).bind fun dir' =>
      edit_directory_node cd.2.2 dn.2 dir'

/-- `NodeFS::mv`. -/
def mv (fs : FS) (source destination : List Nat) : Option FS :=
  if source = destination then some fs
  else if source = [47] then none
  else
    (split_path source true false).bind fun spn =>
    (traverse_path fs source).bind fun sn =>
    (get_directory_node fs sn.1.parent_block_id).bind fun source_parent_node =>
    (traverse_path fs destination).bind fun tn =>
    if tn.1.kind ≠ .Directory then none
    else
      (tn.1.is_full).bind fun full =>
      if full then none
      else
        (tn.1.contains_entry spn.2).bind fun cont =>
        if cont then none
        else
          (source_parent_node.delete_directory_entry spn.2).bind fun source_parent' =>
          (tn.1.push_directory_entry spn.2 sn.2).bind fun target_node' =>
          (edit_directory_node fs sn.1.parent_block_id source_parent').bind fun fs₁ =>
          edit_directory_node fs₁ tn.2 target_node'

/-! ## Chunking lemmas -/

theorem BLOCK_SIZE_eq : BLOCK_SIZE = 8388608 := rfl

theorem chunks_length (l : List Nat) :
    (chunks l).length = (l.length + BLOCK_SIZE - 1) / BLOCK_SIZE := by
  induction l using chunks.induct with
  | case1 => rw [chunks]; simp [BLOCK_SIZE_eq]
  | case2 l hne ih =>
    rw [chunks, if_neg hne]
    simp only [List.length_cons, ih, List.length_drop]
    have : 0 < l.length := List.length_pos.mpr hne
    simp only [BLOCK_SIZE_eq] at *
    omega

theorem chunks_join (l : List Nat) : (chunks l).flatten = l := by
  induction l using chunks.induct with
  | case1 => rw [chunks]; simp
  | case2 l hne ih =>
    rw [chunks, if_neg hne]
    simp [ih]

theorem chunks_map_length (l : List Nat) (hne : l ≠ []) :
    (chunks l).map List.length =
      List.replicate ((l.length - 1) / BLOCK_SIZE) BLOCK_SIZE ++
        [(l.length - 1) % BLOCK_SIZE + 1] := by
  induction l using chunks.induct with
  | case1 => simp_all
  | case2 l hne' ih =>
    rw [chunks, if_neg hne']
    have hpos : 0 < l.length := List.length_pos.mpr hne'
    by_cases hle : l.length ≤ BLOCK_SIZE
    · rw [chunks]
      rw [if_pos (by simp [List.drop_eq_nil_iff]; omega)]
      simp only [List.map_cons, List.map_nil, List.length_take]
      have h1 : (l.length - 1) / BLOCK_SIZE = 0 := Nat.div_eq_of_lt (by omega)
      have h2 : (l.length - 1) % BLOCK_SIZE = l.length - 1 := Nat.mod_eq_of_lt (by omega)
      rw [h1, h2]
      simp only [List.replicate_zero, List.nil_append, List.cons.injEq, and_true]
      omega
    · push_neg at hle
      have hdne : l.drop BLOCK_SIZE ≠ [] := by
        simp [List.drop_eq_nil_iff]
        omega
      rw [List.map_cons, ih hdne]
      have hlen : (l.drop BLOCK_SIZE).length = l.length - BLOCK_SIZE := by simp
      rw [hlen]
      have htake : (l.take BLOCK_SIZE).length = BLOCK_SIZE := by simp; omega
      rw [htake]
      have hm : BLOCK_SIZE ≤ l.length - 1 := by omega
      have hsub : l.length - 1 - BLOCK_SIZE = l.length - BLOCK_SIZE - 1 := by omega
      have e1 : (l.length - 1) / BLOCK_SIZE = (l.length - BLOCK_SIZE - 1) / BLOCK_SIZE + 1 := by
        rw [Nat.div_eq_sub_div (by norm_num [BLOCK_SIZE_eq]) hm, hsub]
      have e2 : (l.length - 1) % BLOCK_SIZE = (l.length - BLOCK_SIZE - 1) % BLOCK_SIZE := by
        rw [Nat.mod_eq_sub_mod hm, hsub]
      rw [e1, e2, List.replicate_succ]
      rw [List.cons_append]

theorem chunks_sum (l : List Nat) : ((chunks l).map List.length).sum = l.length := by
  induction l using chunks.induct with
  | case1 => rw [chunks]; simp
  | case2 l hne ih =>
    rw [chunks, if_neg hne]
    simp only [List.map_cons, List.sum_cons, ih, List.length_take, List.length_drop]
    omega

theorem uploadLoop_spec_aux (c : Cipher) (N : Nat) :
    ∀ (rest : List Nat) (fs : FS) (fn : Node) (i : Nat) (fs' : FS) (fn' : Node)
      (tr : List Event), rest.length ≤ N →
      uploadLoop c fs fn i rest = some (fs', fn', tr) →
      fs'.store = fs.store ++ (List.range (chunks rest).length).map
        (fun j => Blk.data (c.enc (nonceBytes (i + j)) ((chunks rest).getD j []))) ∧
      fs'.root_node_id = fs.root_node_id ∧
      fn' = { fn with
              blocks := fn.blocks ++ (List.range (chunks rest).length).map
                (fun j => fs.store.length + 1 + j),
              size := fn.size + rest.length } ∧
      tr = List.replicate (chunks rest).length Event.sendData := by
  induction N with
  | zero =>
    intro rest fs fn i fs' fn' tr hN h
    obtain rfl : rest = [] := List.eq_nil_of_length_eq_zero (by omega)
    rw [uploadLoop, if_pos rfl] at h
    simp only [Option.some.injEq, Prod.mk.injEq] at h
    obtain ⟨rfl, rfl, rfl⟩ := h
    rw [chunks]
    simp
  | succ N ih =>
    intro rest fs fn i fs' fn' tr hN h
    by_cases hnil : rest = []
    · subst hnil
      rw [uploadLoop, if_pos rfl] at h
      simp only [Option.some.injEq, Prod.mk.injEq] at h
      obtain ⟨rfl, rfl, rfl⟩ := h
      rw [chunks]
      simp
    · rw [uploadLoop, if_neg hnil] at h
      cases hpush : fn.push_data_block
          (create_data_block fs (c.enc (nonceBytes i) (rest.take BLOCK_SIZE))).2
          (rest.take BLOCK_SIZE).length with
      | none =>
        rw [hpush] at h
        exact absurd h (by simp)
      | some fn₁ =>
        rw [hpush] at h
        replace h : (match uploadLoop c
            (create_data_block fs (c.enc (nonceBytes i) (rest.take BLOCK_SIZE))).1
            fn₁ (i + 1) (rest.drop BLOCK_SIZE) with
          | none => none
          | some (fs'', fn'', tr) => some (fs'', fn'', Event.sendData :: tr)) =
            some (fs', fn', tr) := h
        cases hrec : uploadLoop c
            (create_data_block fs (c.enc (nonceBytes i) (rest.take BLOCK_SIZE))).1
            fn₁ (i + 1) (rest.drop BLOCK_SIZE) with
        | none =>
          rw [hrec] at h
          exact absurd h (by simp)
        | some out =>
          obtain ⟨fs₂, fn₂, tr₂⟩ := out
          rw [hrec] at h
          simp only [Option.some.injEq, Prod.mk.injEq] at h
          obtain ⟨rfl, rfl, rfl⟩ := h
          have hrlen : 0 < rest.length := List.length_pos.mpr hnil
          obtain ⟨hstore, hroot, hfn, htr⟩ := ih (rest.drop BLOCK_SIZE) _ fn₁ (i + 1)
            fs₂ fn₂ tr₂ (by
              simp only [List.length_drop, BLOCK_SIZE_eq]
              omega) hrec
          have hchunks : chunks rest =
              rest.take BLOCK_SIZE :: chunks (rest.drop BLOCK_SIZE) := by
            rw [chunks, if_neg hnil]
          have hpush' : fn₁ = { fn with
              blocks := fn.blocks ++ [fs.store.length + 1],
              size := fn.size + (rest.take BLOCK_SIZE).length } := by
            rw [Node.push_data_block] at hpush
            split at hpush
            · injection hpush with hpush
              exact hpush.symm
            · exact absurd hpush (by simp)
          have hcd : (create_data_block fs
              (c.enc (nonceBytes i) (rest.take BLOCK_SIZE))).1.store =
              fs.store ++ [Blk.data (c.enc (nonceBytes i) (rest.take BLOCK_SIZE))] := rfl
          have hcr : (create_data_block fs (c.enc (nonceBytes i)
              (rest.take BLOCK_SIZE))).1.root_node_id = fs.root_node_id := rfl
          have hL1 : (create_data_block fs
              (c.enc (nonceBytes i) (rest.take BLOCK_SIZE))).1.store.length =
              fs.store.length + 1 := by
            rw [hcd, List.length_append]
            rfl
          refine ⟨?_, ?_, ?_, ?_⟩
          · rw [hstore, hcd, hchunks]
            simp only [List.length_cons, List.range_succ_eq_map, List.map_cons, List.map_map,
              List.append_assoc, List.singleton_append, List.getD_cons_zero, Nat.add_zero]
            congr 1
            congr 1
            apply List.map_congr_left
            intro j _
            simp only [Function.comp_apply, List.getD_cons_succ]
            have hij : i + 1 + j = i + (j + 1) := by omega
            rw [hij]
          · rw [hroot, hcr]
          · rw [hfn, hpush']
            cases fn with
            | mk kind size parent blocks entries =>
              simp only [Node.mk.injEq, true_and, and_true]
              refine ⟨?_, ?_⟩
              · simp only [List.length_take, List.length_drop]
                omega
              · rw [hchunks, hL1]
                simp only [List.length_cons, List.range_succ_eq_map, List.map_cons,
                  List.map_map, List.append_assoc, List.singleton_append, Nat.add_zero]
                congr 1
                congr 1
                apply List.map_congr_left
                intro j _
                simp only [Function.comp_apply]
                omega
          · rw [htr, hchunks]
            simp [List.replicate_succ]

/-- Full characterisation of a successful upload loop: the store gains one
encrypted data block per chunk (with sequential nonces), the file node gains
the fresh block ids in order and accumulates the plaintext length, and the
trace is one `sendData` per chunk. -/
theorem uploadLoop_spec (c : Cipher) (fs : FS) (fn : Node) (i : Nat) (rest : List Nat)
    (fs' : FS) (fn' : Node) (tr : List Event)
    (h : uploadLoop c fs fn i rest = some (fs', fn', tr)) :
    fs'.store = fs.store ++ (List.range (chunks rest).length).map
      (fun j => Blk.data (c.enc (nonceBytes (i + j)) ((chunks rest).getD j []))) ∧
    fs'.root_node_id = fs.root_node_id ∧
    fn' = { fn with
            blocks := fn.blocks ++ (List.range (chunks rest).length).map
              (fun j => fs.store.length + 1 + j),
            size := fn.size + rest.length } ∧
    tr = List.replicate (chunks rest).length Event.sendData :=
  uploadLoop_spec_aux c rest.length rest fs fn i fs' fn' tr le_rfl h

theorem create_file_node_eq (fs : FS) (parent : Nat) :
    create_file_node fs parent = some (Node.new .File parent, fs.store.length + 1,
      ⟨fs.store ++ [.node (Node.new .File parent)], fs.root_node_id⟩) := rfl

theorem create_directory_node_eq (fs : FS) (parent : Nat) :
    create_directory_node fs parent = some (Node.new .Directory parent, fs.store.length + 1,
      ⟨fs.store ++ [.node (Node.new .Directory parent)], fs.root_node_id⟩) := rfl

/-- Decomposition of a successful `upload` into its constituent remote
operations. -/
theorem upload_success {cipherOf : List Nat → Cipher} {fs : FS}
    {source destination key : List Nat} {fs₄ : FS} {fid : Nat} {tr : List Event}
    (h : upload cipherOf fs source destination key = some (fs₄, fid, tr)) :
    source.length ≤ MAX_FILE_SIZE ∧ 32 ≤ byteLen key ∧ fid = fs.store.length + 1 ∧
    ∃ file_path file_name dir_node dir_node_id fs₂ file_node' trL dir_node' fs₃,
      split_path destination false false = some (file_path, file_name) ∧
      traverse_path fs file_path = some (dir_node, dir_node_id) ∧
      dir_node.is_full = some false ∧
      dir_node.contains_entry file_name = some false ∧
      uploadLoop (cipherOf ((strBytes key).take 32))
        ⟨fs.store ++ [.node (Node.new .File dir_node_id)], fs.root_node_id⟩
        (Node.new .File dir_node_id) 0 source = some (fs₂, file_node', trL) ∧
      dir_node.push_directory_entry file_name fid = some dir_node' ∧
      edit_directory_node fs₂ dir_node_id dir_node' = some fs₃ ∧
      edit_file_node fs₃ fid file_node' = some fs₄ ∧
      tr = Event.sendNode :: trL ++ [Event.editDir, Event.editFile] := by
  rw [upload] at h
  by_cases hmax : MAX_FILE_SIZE < source.length
  · rw [if_pos hmax] at h
    exact absurd h (by simp)
  rw [if_neg hmax] at h
  simp only [Option.bind_eq_some] at h
  obtain ⟨⟨file_path, file_name⟩, hsplit, h⟩ := h
  obtain ⟨⟨dir_node, dir_node_id⟩, htrav, h⟩ := h
  obtain ⟨full, hfull, h⟩ := h
  cases full with
  | true =>
    rw [if_pos rfl] at h
    exact absurd h (by simp)
  | false =>
    rw [if_neg (by simp)] at h
    simp only [Option.bind_eq_some] at h
    obtain ⟨cont, hcont, h⟩ := h
    cases cont with
    | true =>
      rw [if_pos rfl] at h
      exact absurd h (by simp)
    | false =>
      rw [if_neg (by simp)] at h
      simp only [Option.bind_eq_some] at h
      obtain ⟨⟨file_node, file_node_id, fs₁⟩, hcreate, h⟩ := h
      rw [create_file_node_eq] at hcreate
      simp only [Option.some.injEq, Prod.mk.injEq] at hcreate
      obtain ⟨rfl, rfl, rfl⟩ := hcreate
      by_cases hkey : byteLen key < 32
      · rw [if_pos hkey] at h
        exact absurd h (by simp)
      rw [if_neg hkey] at h
      simp only [Option.bind_eq_some] at h
      obtain ⟨⟨fs₂, file_node', trL⟩, hloop, h⟩ := h
      obtain ⟨dir_node', hpush, h⟩ := h
      obtain ⟨fs₃, hedit, h⟩ := h
      obtain ⟨fs₄', hedit2, h⟩ := h
      simp only [Option.some.injEq, Prod.mk.injEq] at h
      obtain ⟨rfl, rfl, rfl⟩ := h
      exact ⟨by omega, by omega, rfl,
        file_path, file_name, dir_node, dir_node_id, fs₂, file_node', trL, dir_node', fs₃,
        hsplit, htrav, hfull, hcont, hloop, hpush, hedit, hedit2, rfl⟩

theorem edit_directory_node_some {fs fs' : FS} {id : Nat} {n : Node}
    (h : edit_directory_node fs id n = some fs') :
    n.kind = .Directory ∧ (∃ bs, n.to_bytes = some bs) ∧
      fs' = fs.setBlk id (.node n) := by
  rw [edit_directory_node] at h
  split at h
  · cases hb : n.to_bytes with
    | none => rw [hb] at h; exact absurd h (by simp)
    | some p =>
      cases hg : fs.getBlk id with
      | none => rw [hb, hg] at h; exact absurd h (by simp)
      | some b =>
        rw [hb, hg] at h
        simp only [Option.some.injEq] at h
        exact ⟨by assumption, ⟨p, rfl⟩, h.symm⟩
  · exact absurd h (by simp)

theorem edit_file_node_some {fs fs' : FS} {id : Nat} {n : Node}
    (h : edit_file_node fs id n = some fs') :
    n.kind = .File ∧ (∃ bs, n.to_bytes = some bs) ∧
      fs' = fs.setBlk id (.node n) := by
  rw [edit_file_node] at h
  split at h
  · cases hb : n.to_bytes with
    | none => rw [hb] at h; exact absurd h (by simp)
    | some p =>
      cases hg : fs.getBlk id with
      | none => rw [hb, hg] at h; exact absurd h (by simp)
      | some b =>
        rw [hb, hg] at h
        simp only [Option.some.injEq] at h
        exact ⟨by assumption, ⟨p, rfl⟩, h.symm⟩
  · exact absurd h (by simp)

theorem setBlk_store_length (fs : FS) (id : Nat) (b : Blk) :
    (fs.setBlk id b).store.length = fs.store.length := by
  simp [FS.setBlk]

theorem getBlk_setBlk_self (fs : FS) (id : Nat) (b : Blk) (h0 : id ≠ 0)
    (hlt : id - 1 < fs.store.length) : (fs.setBlk id b).getBlk id = some b := by
  simp only [FS.getBlk, FS.setBlk, if_neg h0]
  exact List.getElem?_set_self hlt

/-! ## Evaluating node reads

The getters re-decode the stored encoding; on a canonical (`ValidAscii`)
stored node the round trip returns the node itself, and on any stored file
node it returns the node with its `u64` fields reduced mod `2 ^ 64`. -/

theorem get_node_eval {fs : FS} {id : Nat} {n : Node}
    (hblk : fs.getBlk id = some (.node n)) (hva : n.ValidAscii) :
    get_node fs id = some n := by
  obtain ⟨bs, htb, hfb⟩ := node_roundtrip n hva
  simp [get_node, hblk, htb, hfb]

theorem get_directory_node_eval {fs : FS} {id : Nat} {n : Node}
    (hblk : fs.getBlk id = some (.node n)) (hva : n.ValidAscii)
    (hk : n.kind = .Directory) :
    get_directory_node fs id = some n := by
  obtain ⟨bs, htb, hfb⟩ := node_roundtrip n hva
  simp [get_directory_node, hblk, htb, hfb, hk]

theorem get_file_node_eval {fs : FS} {id : Nat} {n : Node}
    (hblk : fs.getBlk id = some (.node n)) (hva : n.ValidAscii)
    (hk : n.kind = .File) :
    get_file_node fs id = some n := by
  obtain ⟨bs, htb, hfb⟩ := node_roundtrip n hva
  simp [get_file_node, hblk, htb, hfb, hk]

theorem get_directory_node_file_none {fs : FS} {id : Nat} {n : Node}
    (hblk : fs.getBlk id = some (.node n)) (hva : n.ValidAscii)
    (hk : n.kind = .File) :
    get_directory_node fs id = none := by
  obtain ⟨bs, htb, hfb⟩ := node_roundtrip n hva
  simp [get_directory_node, hblk, htb, hfb, hk]

theorem get_root_directory_node_eq (fs : FS) :
    get_root_directory_node fs = get_directory_node fs fs.root_node_id := rfl

theorem get_root_eval {fs : FS} {n : Node}
    (hblk : fs.getBlk fs.root_node_id = some (.node n)) (hva : n.ValidAscii)
    (hk : n.kind = .Directory) :
    get_root_directory_node fs = some n := by
  rw [get_root_directory_node_eq]
  exact get_directory_node_eval hblk hva hk

/-- Reading back any stored file node: the decode succeeds exactly when the
stored size fits, returning the node with its `u64` fields reduced. -/
theorem get_file_node_decode {fs : FS} {id : Nat} {n : Node} {bs : List Nat}
    (hblk : fs.getBlk id = some (.node n)) (hk : n.kind = .File)
    (htb : n.to_bytes = some bs)
    (hsz : n.size < U64) (hmax : n.size ≤ MAX_FILE_SIZE) :
    get_file_node fs id =
      some ⟨.File, n.size, n.parent_block_id % U64, n.blocks.map (· % U64), []⟩ := by
  obtain ⟨hbseq, hlen⟩ := to_bytes_some_file hk htb
  have hfb : Node.from_bytes bs =
      some ⟨.File, n.size, n.parent_block_id % U64, n.blocks.map (· % U64), []⟩ := by
    rw [hbseq, u64le_mod n.parent_block_id,
      from_bytes_file n.size (n.parent_block_id % U64) _ hsz (Nat.mod_lt _ U64_pos)
        (by rw [flatMap_u64le_length]; omega)]
    rw [if_pos hmax, asChunks8_flatMap_u64le, List.map_map]
    have hc : (leToNat ∘ u64le) = fun x : Nat => x % U64 := by
      funext x
      simp [Function.comp, leToNat_u64le]
    rw [hc]
  simp [get_file_node, hblk, htb, hfb]

/-! ## Evaluating concrete traversals -/

theorem traverse_path_root {fs : FS} {root : Node}
    (h : get_root_directory_node fs = some root) :
    traverse_path fs [47] = some (root, fs.root_node_id) := by
  rw [traverse_path, if_neg (by decide), if_pos rfl, h]
  simp only [Option.some_bind]

/-- Resolving `traverse_path` one step, on a path that is neither rejected
nor the bare root. -/
theorem traverse_path_cons {fs : FS} {p s : List Nat} {ss : List (List Nat)}
    (hhead : p.head? = some 47) (hne : p ≠ [47])
    (hsp : splitInc 47 p = s :: ss) :
    traverse_path fs p =
      (get_root_directory_node fs).bind fun root =>
      (traverseFrom fs root ((s :: ss).dropLast.drop 1)).bind fun d =>
      (d.get_directory_entry ((s :: ss).getLast (by simp))).bind fun e =>
      if ((s :: ss).getLast (by simp)).getLast? = some 47 then
        (get_directory_node fs e.block).bind fun dn =>
        some (dn, e.block)
      else
        (get_file_node fs e.block).bind fun fn =>
        some (fn, e.block) := by
  rw [traverse_path, if_neg (show ¬ (p.head? ≠ some 47) from by simp [hhead]),
    if_neg hne, hsp]

theorem traverseFrom_one {fs : FS} {dn : Node} {seg : List Nat} {e : DirectoryEntry}
    {d : Node} (hseg : seg ≠ []) (he : dn.get_directory_entry seg = some e)
    (hd : get_directory_node fs e.block = some d) :
    traverseFrom fs dn [seg] = some d := by
  simp only [traverseFrom, if_neg hseg, he, Option.some_bind, hd]

/-- A two-segment path — the root then one directory leaf — resolves to that
directory. -/
theorem traverse_path_dir_leaf {fs : FS} {p seg : List Nat} {root : Node}
    {e : DirectoryEntry} {d : Node}
    (hhead : p.head? = some 47) (hne : p ≠ [47])
    (hsp : splitInc 47 p = [[47], seg])
    (hroot : get_root_directory_node fs = some root)
    (hseg47 : seg.getLast? = some 47)
    (he : root.get_directory_entry seg = some e)
    (hd : get_directory_node fs e.block = some d) :
    traverse_path fs p = some (d, e.block) := by
  rw [traverse_path_cons hhead hne hsp, hroot]
  simp only [Option.some_bind]
  rw [show traverseFrom fs root ((([47] : List Nat) :: [seg]).dropLast.drop 1) =
      some root from rfl]
  simp only [Option.some_bind]
  rw [show ((([47] : List Nat) :: [seg]).getLast (by simp)) = seg from rfl, he]
  simp only [Option.some_bind]
  rw [if_pos hseg47, hd]
  simp only [Option.some_bind]

/-- A three-segment path — the root, one directory, then a file leaf —
resolves to that file. -/
theorem traverse_path_file_two {fs : FS} {p seg₁ seg₂ : List Nat} {root d : Node}
    {e₁ e₂ : DirectoryEntry} {f : Node}
    (hhead : p.head? = some 47) (hne : p ≠ [47])
    (hsp : splitInc 47 p = [[47], seg₁, seg₂])
    (hroot : get_root_directory_node fs = some root)
    (hseg₁ : seg₁ ≠ [])
    (he₁ : root.get_directory_entry seg₁ = some e₁)
    (hd : get_directory_node fs e₁.block = some d)
    (hseg47 : seg₂.getLast? ≠ some 47)
    (he₂ : d.get_directory_entry seg₂ = some e₂)
    (hf : get_file_node fs e₂.block = some f) :
    traverse_path fs p = some (f, e₂.block) := by
  rw [traverse_path_cons hhead hne hsp, hroot]
  simp only [Option.some_bind]
  rw [show ((([47] : List Nat) :: [seg₁, seg₂]).dropLast.drop 1) = [seg₁] from rfl]
  rw [traverseFrom_one hseg₁ he₁ hd]
  simp only [Option.some_bind]
  rw [show ((([47] : List Nat) :: [seg₁, seg₂]).getLast (by simp)) = seg₂ from rfl, he₂]
  simp only [Option.some_bind]
  rw [if_neg hseg47, hf]
  simp only [Option.some_bind]

/-- Forward evaluation of `mkdir` from its constituent operations. -/
theorem mkdir_eq {fs : FS} {path tp tn : List Nat} {dn : Node} {did : Nat}
    {dir' : Node} {fs' : FS}
    (h2 : split_path path true true = some (tp, tn))
    (h3 : traverse_path fs tp = some (dn, did))
    (h4 : dn.is_full = some false)
    (h5 : dn.contains_entry tn = some false)
    (h9 : dn.push_directory_entry tn (fs.store.length + 1) = some dir')
    (h10 : edit_directory_node
      ⟨fs.store ++ [.node (Node.new .Directory did)], fs.root_node_id⟩ did dir' =
      some fs') :
    mkdir fs path = some fs' := by
  rw [mkdir, h2]
  simp only [Option.some_bind]
  rw [h3]
  simp only [Option.some_bind]
  rw [h4]
  simp only [Option.some_bind]
  rw [if_neg (by decide : ¬ (false = true))]
  rw [h5]
  simp only [Option.some_bind]
  rw [if_neg (by decide : ¬ (false = true))]
  rw [create_directory_node_eq]
  simp only [Option.some_bind]
  rw [h9]
  simp only [Option.some_bind]
  exact h10

/-- Forward evaluation of `mv` from its constituent operations. -/
theorem mv_eq {fs : FS} {source destination sp sn : List Nat} {snode : Node}
    {sid : Nat} {spn : Node} {tnode : Node} {tid : Nat} {spn' tn' : Node}
    {fs₁ fs₂ : FS}
    (hne : source ≠ destination) (hs47 : source ≠ [47])
    (h1 : split_path source true false = some (sp, sn))
    (h2 : traverse_path fs source = some (snode, sid))
    (h3 : get_directory_node fs snode.parent_block_id = some spn)
    (h4 : traverse_path fs destination = some (tnode, tid))
    (h5 : tnode.kind = .Directory)
    (h6 : tnode.is_full = some false)
    (h7 : tnode.contains_entry sn = some false)
    (h8 : spn.delete_directory_entry sn = some spn')
    (h9 : tnode.push_directory_entry sn sid = some tn')
    (h10 : edit_directory_node fs snode.parent_block_id spn' = some fs₁)
    (h11 : edit_directory_node fs₁ tid tn' = some fs₂) :
    mv fs source destination = some fs₂ := by
  rw [mv, if_neg hne, if_neg hs47, h1]
  simp only [Option.some_bind]
  rw [h2]
  simp only [Option.some_bind]
  rw [h3]
  simp only [Option.some_bind]
  rw [h4]
  simp only [Option.some_bind]
  rw [if_neg (show ¬ (tnode.kind ≠ NodeKind.Directory) from fun hc => hc h5)]
  rw [h6]
  simp only [Option.some_bind]
  rw [if_neg (by decide : ¬ (false = true))]
  rw [h7]
  simp only [Option.some_bind]
  rw [if_neg (by decide : ¬ (false = true))]
  rw [h8]
  simp only [Option.some_bind]
  rw [h9]
  simp only [Option.some_bind]
  rw [h10]
  simp only [Option.some_bind]
  exact h11

/-- **C6**: a successful upload of `S > 0` bytes stores exactly
`⌈S / BLOCK_SIZE⌉` data blocks; every chunk is `BLOCK_SIZE` bytes except the
last, which is `S mod BLOCK_SIZE` bytes when that is nonzero (`BLOCK_SIZE`
otherwise); and the file node's `size` is `S`, the sum of the chunk sizes. -/
theorem claim_C6 (cipherOf : List Nat → Cipher) (fs : FS)
    (source destination key : List Nat) (fs' : FS) (fid : Nat) (tr : List Event)
    (hne : source ≠ [])
    (h : upload cipherOf fs source destination key = some (fs', fid, tr)) :
    ∃ fn, get_file_node fs' fid = some fn ∧
      fn.size = source.length ∧
      fn.blocks.length = (source.length + BLOCK_SIZE - 1) / BLOCK_SIZE ∧
      ((chunks source).map List.length).sum = source.length ∧
      (chunks source).map List.length =
        List.replicate ((source.length + BLOCK_SIZE - 1) / BLOCK_SIZE - 1) BLOCK_SIZE ++
          [if source.length % BLOCK_SIZE = 0 then BLOCK_SIZE
           else source.length % BLOCK_SIZE] := by
  obtain ⟨hmax, hkey, rfl, file_path, file_name, dir_node, dir_node_id, fs₂, file_node',
    trL, dir_node', fs₃, hsplit, htrav, hfull, hcont, hloop, hpush, hedit, hedit2, htr⟩ :=
    upload_success h
  obtain ⟨hstore, hroot, hfn, htrL⟩ := uploadLoop_spec _ _ _ _ _ _ _ _ hloop
  obtain ⟨hkind3, ⟨bsf, htbf⟩, rfl⟩ := edit_file_node_some hedit2
  obtain ⟨hkind2, ⟨bsd, htbd⟩, rfl⟩ := edit_directory_node_some hedit
  have hS : 0 < source.length := List.length_pos.mpr hne
  have hlen2 : fs₂.store.length =
      fs.store.length + 1 + (chunks source).length := by
    rw [hstore]
    simp
    omega
  have hgb := getBlk_setBlk_self (fs₂.setBlk dir_node_id (Blk.node dir_node'))
    (fs.store.length + 1) (Blk.node file_node') (by omega)
    (by rw [setBlk_store_length]; omega)
  have hszS : file_node'.size = source.length := by
    rw [hfn]
    simp [Node.new]
  have hsz1 : file_node'.size ≤ MAX_FILE_SIZE := by
    rw [hszS]
    exact hmax
  have hsz2 : file_node'.size < U64 := lt_of_le_of_lt hsz1 MAX_lt_U64
  refine ⟨⟨.File, file_node'.size, file_node'.parent_block_id % U64,
      file_node'.blocks.map (· % U64), []⟩, ?_, ?_, ?_, chunks_sum source, ?_⟩
  · exact get_file_node_decode hgb hkind3 htbf hsz2 hsz1
  · exact hszS
  · show (file_node'.blocks.map (· % U64)).length = _
    rw [List.length_map, hfn]
    simp only [Node.new, List.length_append, List.length_map, List.length_range,
      List.nil_append]
    rw [chunks_length]
  · have hc1 : (source.length - 1) / BLOCK_SIZE =
        (source.length + BLOCK_SIZE - 1) / BLOCK_SIZE - 1 := by
      simp only [BLOCK_SIZE_eq]
      omega
    have hc2 : (source.length - 1) % BLOCK_SIZE + 1 =
        if source.length % BLOCK_SIZE = 0 then BLOCK_SIZE
        else source.length % BLOCK_SIZE := by
      simp only [BLOCK_SIZE_eq]
      split
      · omega
      · omega
    rw [chunks_map_length source hne, hc1, hc2]

/-! ## Evaluating a concrete upload -/

theorem uploadLoop_nil (c : Cipher) (fs : FS) (fn : Node) (i : Nat) :
    uploadLoop c fs fn i [] = some (fs, fn, []) := by
  rw [uploadLoop]
  rw [if_pos rfl]

/-- One pass of the upload loop on a final chunk of at most `BLOCK_SIZE`
bytes. -/
theorem uploadLoop_one {c : Cipher} {fs : FS} {fn : Node} {i : Nat} {rest : List Nat}
    (hne : rest ≠ []) (hle : rest.length ≤ BLOCK_SIZE)
    (hkind : fn.kind = .File) (hbl : fn.blocks.length < BLOCK_COUNT)
    (hsz : fn.size ≤ MAX_FILE_SIZE) :
    uploadLoop c fs fn i rest =
      some (⟨fs.store ++ [.data (c.enc (nonceBytes i) rest)], fs.root_node_id⟩,
        { fn with blocks := fn.blocks ++ [fs.store.length + 1],
                  size := fn.size + rest.length },
        [.sendData]) := by
  rw [uploadLoop, if_neg hne]
  have ht : rest.take BLOCK_SIZE = rest := List.take_of_length_le hle
  have hd : rest.drop BLOCK_SIZE = [] := by
    rw [List.drop_eq_nil_iff]
    exact hle
  simp only [ht, hd, uploadLoop_nil]
  rw [Node.push_data_block, if_pos ⟨hkind, hbl, hsz⟩]
  simp only [create_data_block, FS.send]

/-- Forward evaluation of `upload` from the outcomes of its constituent
remote operations. -/
theorem upload_eq {cipherOf : List Nat → Cipher} {fs : FS}
    {source destination key : List Nat}
    {file_path file_name : List Nat} {dir_node : Node} {dir_node_id : Nat}
    {fs₂ : FS} {file_node' : Node} {trL : List Event} {dir_node' : Node}
    {fs₃ fs₄ : FS}
    (h1 : ¬ MAX_FILE_SIZE < source.length)
    (h2 : split_path destination false false = some (file_path, file_name))
    (h3 : traverse_path fs file_path = some (dir_node, dir_node_id))
    (h4 : dir_node.is_full = some false)
    (h5 : dir_node.contains_entry file_name = some false)
    (h7 : ¬ byteLen key < 32)
    (h8 : uploadLoop (cipherOf ((strBytes key).take 32))
        ⟨fs.store ++ [.node (Node.new .File dir_node_id)], fs.root_node_id⟩
        (Node.new .File dir_node_id) 0 source = some (fs₂, file_node', trL))
    (h9 : dir_node.push_directory_entry file_name (fs.store.length + 1) = some dir_node')
    (h10 : edit_directory_node fs₂ dir_node_id dir_node' = some fs₃)
    (h11 : edit_file_node fs₃ (fs.store.length + 1) file_node' = some fs₄) :
    upload cipherOf fs source destination key =
      some (fs₄, fs.store.length + 1,
        Event.sendNode :: trL ++ [Event.editDir, Event.editFile]) := by
  rw [upload, if_neg h1, h2]
  simp only [Option.some_bind]
  rw [h3]
  simp only [Option.some_bind]
  rw [h4]
  simp only [Option.some_bind]
  rw [if_neg (by decide : ¬ (false = true))]
  rw [h5]
  simp only [Option.some_bind]
  rw [if_neg (by decide : ¬ (false = true))]
  rw [create_file_node_eq]
  simp only [Option.some_bind]
  rw [if_neg h7, h8]
  simp only [Option.some_bind]
  rw [h9]
  simp only [Option.some_bind]
  rw [h10]
  simp only [Option.some_bind]
  rw [h11]
  simp only [Option.some_bind]

/-- The identity cipher: decryption inverts encryption trivially. -/
def idCipher : Cipher := ⟨fun _ m => m, fun _ m => some m⟩

/-- A key-independent cipher family standing in for
`Aes256GcmSiv::new_from_slice`. -/
def idCipherOf : List Nat → Cipher := fun _ => idCipher

/-- A fresh remote: a single empty root directory node at id 1. -/
def fs0 : FS := ⟨[.node (Node.new .Directory 0)], 1⟩

/-- A 32-byte ASCII key (32 repetitions of the byte of the digit zero). -/
def key0 : List Nat := List.replicate 32 48

/-- A concrete successful upload: one byte to the path of a slash and the
letter f, on a fresh remote, with the identity cipher. -/
theorem upload_concrete :
    upload idCipherOf fs0 [7] [47, 102] key0 =
      some (⟨[.node ⟨.Directory, 1, 0, [], [DirectoryEntry.new [102] 2]⟩,
              .node ⟨.File, 1, 1, [3], []⟩, .data [7]], 1⟩, 2,
        Event.sendNode :: [Event.sendData] ++ [Event.editDir, Event.editFile]) := by
  have h2 : split_path [47, 102] false false = some ([47], [102]) := by decide
  have h3 : traverse_path fs0 [47] = some (Node.new .Directory 0, 1) :=
    traverse_path_root (get_root_eval rfl (by decide) rfl)
  have h8 : uploadLoop (idCipherOf ((strBytes key0).take 32))
      ⟨fs0.store ++ [.node (Node.new .File 1)], fs0.root_node_id⟩
      (Node.new .File 1) 0 [7] =
      some (⟨[.node (Node.new .Directory 0), .node (Node.new .File 1), .data [7]], 1⟩,
        ⟨.File, 1, 1, [3], []⟩, [.sendData]) := by
    rw [uploadLoop_one (by decide) (by decide) (by decide) (by decide) (by decide)]
    decide
  have h9 : (Node.new .Directory 0).push_directory_entry [102] (fs0.store.length + 1) =
      some ⟨.Directory, 1, 0, [], [DirectoryEntry.new [102] 2]⟩ := by decide
  have h10 : edit_directory_node
      ⟨[.node (Node.new .Directory 0), .node (Node.new .File 1), .data [7]], 1⟩ 1
      ⟨.Directory, 1, 0, [], [DirectoryEntry.new [102] 2]⟩ =
      some ⟨[.node ⟨.Directory, 1, 0, [], [DirectoryEntry.new [102] 2]⟩,
             .node (Node.new .File 1), .data [7]], 1⟩ := by decide
  have h11 : edit_file_node
      ⟨[.node ⟨.Directory, 1, 0, [], [DirectoryEntry.new [102] 2]⟩,
        .node (Node.new .File 1), .data [7]], 1⟩ (fs0.store.length + 1)
      (⟨.File, 1, 1, [3], []⟩ : Node) =
      some ⟨[.node ⟨.Directory, 1, 0, [], [DirectoryEntry.new [102] 2]⟩,
             .node ⟨.File, 1, 1, [3], []⟩, .data [7]], 1⟩ := by decide
  exact upload_eq (by decide) h2 h3 (by decide) (by decide) (by decide) h8 h9 h10 h11

/-- Witness for C6: the concrete one-byte upload succeeds and its file node
carries one block of one byte. -/
theorem claim_C6_witness :
    ∃ fn, get_file_node
        (⟨[.node ⟨.Directory, 1, 0, [], [DirectoryEntry.new [102] 2]⟩,
           .node ⟨.File, 1, 1, [3], []⟩, .data [7]], 1⟩ : FS) 2 = some fn ∧
      fn.size = ([7] : List Nat).length ∧
      fn.blocks.length = (([7] : List Nat).length + BLOCK_SIZE - 1) / BLOCK_SIZE ∧
      ((chunks [7]).map List.length).sum = ([7] : List Nat).length ∧
      (chunks [7]).map List.length =
        List.replicate ((([7] : List Nat).length + BLOCK_SIZE - 1) / BLOCK_SIZE - 1)
            BLOCK_SIZE ++
          [if ([7] : List Nat).length % BLOCK_SIZE = 0 then BLOCK_SIZE
           else ([7] : List Nat).length % BLOCK_SIZE] :=
  claim_C6 idCipherOf fs0 [7] [47, 102] key0 _ 2 _ (by decide) upload_concrete

/-- **C4** (amended): in the trace of remote calls issued by a successful
upload, the parent-directory edit occurs after the initial file-node send
and after every data-block send, but immediately before — not after — the
final file-node edit: the trace is the node send, then one data send per
chunk, then the directory edit, then the file edit. -/
theorem claim_C4 {cipherOf : List Nat → Cipher} {fs : FS}
    {source destination key : List Nat} {fs' : FS} {fid : Nat} {tr : List Event}
    (h : upload cipherOf fs source destination key = some (fs', fid, tr)) :
    tr = Event.sendNode ::
      (List.replicate (chunks source).length Event.sendData ++
        [Event.editDir, Event.editFile]) := by
  obtain ⟨hmax, hkey, rfl, file_path, file_name, dir_node, dir_node_id, fs₂, file_node',
    trL, dir_node', fs₃, hsplit, htrav, hfull, hcont, hloop, hpush, hedit, hedit2, htr⟩ :=
    upload_success h
  obtain ⟨hstore, hroot, hfn, htrL⟩ := uploadLoop_spec _ _ _ _ _ _ _ _ hloop
  rw [htr, htrL, List.cons_append]

/-- **C4 counterexample**: a successful upload whose trace places the
parent-directory edit strictly before the final file-node edit, contradicting
the claim that the directory edit never precedes that edit. -/
theorem claim_C4_counterexample :
    ∃ fs' fid tr, upload idCipherOf fs0 [7] [47, 102] key0 = some (fs', fid, tr) ∧
      tr.indexOf Event.editDir < tr.indexOf Event.editFile :=
  ⟨_, _, _, upload_concrete, by decide⟩

/-- Witness for C4 at the concrete one-byte upload. -/
theorem claim_C4_witness :
    upload idCipherOf fs0 [7] [47, 102] key0 =
      some (⟨[.node ⟨.Directory, 1, 0, [], [DirectoryEntry.new [102] 2]⟩,
              .node ⟨.File, 1, 1, [3], []⟩, .data [7]], 1⟩, 2,
        Event.sendNode :: [Event.sendData] ++ [Event.editDir, Event.editFile]) ∧
    Event.sendNode :: [Event.sendData] ++ [Event.editDir, Event.editFile] =
      Event.sendNode :: (List.replicate (chunks [7]).length Event.sendData ++
        [Event.editDir, Event.editFile]) :=
  ⟨upload_concrete, claim_C4 upload_concrete⟩

/-! ## The C3 scenario: mkdir, mkdir, upload, mv -/

/-- The remote after the first mkdir of the C3 scenario. -/
def fs1c : FS :=
  ⟨[.node ⟨.Directory, 1, 0, [], [DirectoryEntry.new [97, 47] 2]⟩,
    .node ⟨.Directory, 0, 1, [], []⟩], 1⟩

/-- The remote after the two mkdirs of the C3 scenario. -/
def fs2c : FS :=
  ⟨[.node ⟨.Directory, 2, 0, [],
      [DirectoryEntry.new [97, 47] 2, DirectoryEntry.new [98, 47] 3]⟩,
    .node ⟨.Directory, 0, 1, [], []⟩,
    .node ⟨.Directory, 0, 1, [], []⟩], 1⟩

/-- The remote after the upload of the C3 scenario. -/
def fs3c : FS :=
  ⟨[.node ⟨.Directory, 2, 0, [],
      [DirectoryEntry.new [97, 47] 2, DirectoryEntry.new [98, 47] 3]⟩,
    .node ⟨.Directory, 1, 1, [], [DirectoryEntry.new [102] 4]⟩,
    .node ⟨.Directory, 0, 1, [], []⟩,
    .node ⟨.File, 1, 2, [5], []⟩, .data [7]], 1⟩

/-- The remote after the mv of the C3 scenario. -/
def fs4c : FS :=
  ⟨[.node ⟨.Directory, 2, 0, [],
      [DirectoryEntry.new [97, 47] 2, DirectoryEntry.new [98, 47] 3]⟩,
    .node ⟨.Directory, 0, 1, [], []⟩,
    .node ⟨.Directory, 1, 1, [], [DirectoryEntry.new [102] 4]⟩,
    .node ⟨.File, 1, 2, [5], []⟩, .data [7]], 1⟩

/-- The C3 scenario's upload: one byte to a path under the first
subdirectory. -/
theorem upload_scenario :
    upload idCipherOf fs2c [7] [47, 97, 47, 102] key0 =
      some (fs3c, 4,
        Event.sendNode :: [Event.sendData] ++ [Event.editDir, Event.editFile]) := by
  have h2 : split_path [47, 97, 47, 102] false false =
      some ([47, 97, 47], [102]) := by decide
  have hroot2 : get_root_directory_node fs2c =
      some ⟨.Directory, 2, 0, [],
        [DirectoryEntry.new [97, 47] 2, DirectoryEntry.new [98, 47] 3]⟩ :=
    get_root_eval rfl (by decide) rfl
  have he : (⟨.Directory, 2, 0, [],
      [DirectoryEntry.new [97, 47] 2, DirectoryEntry.new [98, 47] 3]⟩ :
      Node).get_directory_entry [97, 47] = some (DirectoryEntry.new [97, 47] 2) := by
    decide
  have hd : get_directory_node fs2c (DirectoryEntry.new [97, 47] 2).block =
      some ⟨.Directory, 0, 1, [], []⟩ :=
    get_directory_node_eval rfl (by decide) rfl
  have h3 : traverse_path fs2c [47, 97, 47] =
      some (⟨.Directory, 0, 1, [], []⟩, 2) :=
    traverse_path_dir_leaf (by decide) (by decide) (by decide) hroot2 (by decide) he hd
  have h8 : uploadLoop (idCipherOf ((strBytes key0).take 32))
      ⟨fs2c.store ++ [.node (Node.new .File 2)], fs2c.root_node_id⟩
      (Node.new .File 2) 0 [7] =
      some (⟨fs2c.store ++ [.node (Node.new .File 2), .data [7]], 1⟩,
        ⟨.File, 1, 2, [5], []⟩, [.sendData]) := by
    rw [uploadLoop_one (by decide) (by decide) (by decide) (by decide) (by decide)]
    decide
  have h9 : (⟨.Directory, 0, 1, [], []⟩ : Node).push_directory_entry [102]
      (fs2c.store.length + 1) =
      some ⟨.Directory, 1, 1, [], [DirectoryEntry.new [102] 4]⟩ := by decide
  have h10 : edit_directory_node
      ⟨fs2c.store ++ [.node (Node.new .File 2), .data [7]], 1⟩ 2
      ⟨.Directory, 1, 1, [], [DirectoryEntry.new [102] 4]⟩ =
      some ⟨[.node ⟨.Directory, 2, 0, [],
               [DirectoryEntry.new [97, 47] 2, DirectoryEntry.new [98, 47] 3]⟩,
             .node ⟨.Directory, 1, 1, [], [DirectoryEntry.new [102] 4]⟩,
             .node ⟨.Directory, 0, 1, [], []⟩,
             .node (Node.new .File 2), .data [7]], 1⟩ := by decide
  have h11 : edit_file_node
      ⟨[.node ⟨.Directory, 2, 0, [],
          [DirectoryEntry.new [97, 47] 2, DirectoryEntry.new [98, 47] 3]⟩,
        .node ⟨.Directory, 1, 1, [], [DirectoryEntry.new [102] 4]⟩,
        .node ⟨.Directory, 0, 1, [], []⟩,
        .node (Node.new .File 2), .data [7]], 1⟩ (fs2c.store.length + 1)
      (⟨.File, 1, 2, [5], []⟩ : Node) = some fs3c := by decide
  exact upload_eq (by decide) h2 h3 (by decide) (by decide) (by decide) h8 h9 h10 h11

/-- **C3** is violated by the code: starting from a fresh root, the sequence
mkdir, mkdir, upload, mv succeeds, after which the moved file node (block 4,
non-root) is referenced by exactly one directory — the one at block 3 — yet
its parent_block_id still names block 2, because `mv` never rewrites the
moved node's parent_block_id field. -/
theorem claim_C3 :
    ∃ fs₁ fs₂ fs₃ fid tr fs₄ r a d n,
      mkdir fs0 [47, 97, 47] = some fs₁ ∧
      mkdir fs₁ [47, 98, 47] = some fs₂ ∧
      upload idCipherOf fs₂ [7] [47, 97, 47, 102] key0 = some (fs₃, fid, tr) ∧
      mv fs₃ [47, 97, 47, 102] [47, 98, 47] = some fs₄ ∧
      fid ≠ fs₄.root_node_id ∧
      get_node fs₄ fid = some n ∧
      get_directory_node fs₄ 1 = some r ∧
      (r.entries.any fun e => e.block == fid) = false ∧
      get_directory_node fs₄ 2 = some a ∧
      (a.entries.any fun e => e.block == fid) = false ∧
      get_directory_node fs₄ 3 = some d ∧
      (d.entries.any fun e => e.block == fid) = true ∧
      get_directory_node fs₄ 4 = none ∧
      get_directory_node fs₄ 5 = none ∧
      (∀ id, 5 < id → fs₄.getBlk id = none) ∧
      n.parent_block_id ≠ 3 := by
  have hmk1 : mkdir fs0 [47, 97, 47] = some fs1c := by
    have h3 : traverse_path fs0 [47] = some (Node.new .Directory 0, 1) :=
      traverse_path_root (get_root_eval rfl (by decide) rfl)
    have h9 : (Node.new .Directory 0).push_directory_entry [97, 47]
        (fs0.store.length + 1) =
        some ⟨.Directory, 1, 0, [], [DirectoryEntry.new [97, 47] 2]⟩ := by decide
    exact mkdir_eq (by decide) h3 (by decide) (by decide) h9 (by decide)
  have hmk2 : mkdir fs1c [47, 98, 47] = some fs2c := by
    have h3 : traverse_path fs1c [47] =
        some (⟨.Directory, 1, 0, [], [DirectoryEntry.new [97, 47] 2]⟩, 1) :=
      traverse_path_root (get_root_eval rfl (by decide) rfl)
    have h9 : (⟨.Directory, 1, 0, [], [DirectoryEntry.new [97, 47] 2]⟩ :
        Node).push_directory_entry [98, 47] (fs1c.store.length + 1) =
        some ⟨.Directory, 2, 0, [],
          [DirectoryEntry.new [97, 47] 2, DirectoryEntry.new [98, 47] 3]⟩ := by decide
    exact mkdir_eq (by decide) h3 (by decide) (by decide) h9 (by decide)
  have hmv : mv fs3c [47, 97, 47, 102] [47, 98, 47] = some fs4c := by
    have hroot3 : get_root_directory_node fs3c =
        some ⟨.Directory, 2, 0, [],
          [DirectoryEntry.new [97, 47] 2, DirectoryEntry.new [98, 47] 3]⟩ :=
      get_root_eval rfl (by decide) rfl
    have he₁ : (⟨.Directory, 2, 0, [],
        [DirectoryEntry.new [97, 47] 2, DirectoryEntry.new [98, 47] 3]⟩ :
        Node).get_directory_entry [97, 47] = some (DirectoryEntry.new [97, 47] 2) := by
      decide
    have hd₁ : get_directory_node fs3c (DirectoryEntry.new [97, 47] 2).block =
        some ⟨.Directory, 1, 1, [], [DirectoryEntry.new [102] 4]⟩ :=
      get_directory_node_eval rfl (by decide) rfl
    have he₂ : (⟨.Directory, 1, 1, [], [DirectoryEntry.new [102] 4]⟩ :
        Node).get_directory_entry [102] = some (DirectoryEntry.new [102] 4) := by decide
    have hf : get_file_node fs3c (DirectoryEntry.new [102] 4).block =
        some ⟨.File, 1, 2, [5], []⟩ :=
      get_file_node_eval rfl (by decide) rfl
    have h2 : traverse_path fs3c [47, 97, 47, 102] =
        some (⟨.File, 1, 2, [5], []⟩, 4) :=
      traverse_path_file_two (by decide) (by decide) (by decide) hroot3 (by decide) he₁ hd₁
        (by decide) he₂ hf
    have h3 : get_directory_node fs3c
        ((⟨.File, 1, 2, [5], []⟩ : Node).parent_block_id) =
        some ⟨.Directory, 1, 1, [], [DirectoryEntry.new [102] 4]⟩ :=
      get_directory_node_eval rfl (by decide) rfl
    have he₃ : (⟨.Directory, 2, 0, [],
        [DirectoryEntry.new [97, 47] 2, DirectoryEntry.new [98, 47] 3]⟩ :
        Node).get_directory_entry [98, 47] = some (DirectoryEntry.new [98, 47] 3) := by
      decide
    have hd₃ : get_directory_node fs3c (DirectoryEntry.new [98, 47] 3).block =
        some ⟨.Directory, 0, 1, [], []⟩ :=
      get_directory_node_eval rfl (by decide) rfl
    have h4 : traverse_path fs3c [47, 98, 47] =
        some (⟨.Directory, 0, 1, [], []⟩, 3) :=
      traverse_path_dir_leaf (by decide) (by decide) (by decide) hroot3 (by decide) he₃ hd₃
    have h8 : (⟨.Directory, 1, 1, [], [DirectoryEntry.new [102] 4]⟩ :
        Node).delete_directory_entry [102] = some ⟨.Directory, 0, 1, [], []⟩ := by
      decide
    have h9 : (⟨.Directory, 0, 1, [], []⟩ : Node).push_directory_entry [102] 4 =
        some ⟨.Directory, 1, 1, [], [DirectoryEntry.new [102] 4]⟩ := by decide
    have h10 : edit_directory_node fs3c
        ((⟨.File, 1, 2, [5], []⟩ : Node).parent_block_id) ⟨.Directory, 0, 1, [], []⟩ =
        some ⟨[.node ⟨.Directory, 2, 0, [],
            [DirectoryEntry.new [97, 47] 2, DirectoryEntry.new [98, 47] 3]⟩,
          .node ⟨.Directory, 0, 1, [], []⟩,
          .node ⟨.Directory, 0, 1, [], []⟩,
          .node ⟨.File, 1, 2, [5], []⟩, .data [7]], 1⟩ := by decide
    exact mv_eq (by decide) (by decide)
      (show split_path [47, 97, 47, 102] true false = some ([47, 97, 47], [102])
        by decide) h2 h3 h4 rfl (by decide)
      (by decide) h8 h9 h10 (by decide)
  refine ⟨fs1c, fs2c, fs3c, 4, _, fs4c,
    ⟨.Directory, 2, 0, [], [DirectoryEntry.new [97, 47] 2, DirectoryEntry.new [98, 47] 3]⟩,
    ⟨.Directory, 0, 1, [], []⟩,
    ⟨.Directory, 1, 1, [], [DirectoryEntry.new [102] 4]⟩,
    ⟨.File, 1, 2, [5], []⟩,
    hmk1, hmk2, upload_scenario, hmv, by decide,
    get_node_eval rfl (by decide),
    get_directory_node_eval rfl (by decide) rfl, by decide,
    get_directory_node_eval rfl (by decide) rfl, by decide,
    get_directory_node_eval rfl (by decide) rfl, by decide,
    get_directory_node_file_none rfl (by decide) rfl, rfl,
    ?_, by decide⟩
  intro id hid
  rw [FS.getBlk, if_neg (by omega)]
  apply List.getElem?_eq_none
  have hlen : fs4c.store.length = 5 := rfl
  omega

/-! ## Traversal invariance after an upload -/

theorem getBlk_some {fs : FS} {id : Nat} {b : Blk} (h : fs.getBlk id = some b) :
    id ≠ 0 ∧ id - 1 < fs.store.length ∧ fs.store[id - 1]? = some b := by
  rw [FS.getBlk] at h
  split at h
  · exact absurd h (by simp)
  · rename_i h0
    exact ⟨h0, (List.getElem?_eq_some_iff.mp h).1, h⟩

/-- Inverting a successful directory read: some node is stored there, its
encoding exists, and the returned node is that encoding's decode. -/
theorem get_directory_node_some {fs : FS} {id : Nat} {dn : Node}
    (h : get_directory_node fs id = some dn) :
    ∃ n₀ bs, fs.getBlk id = some (.node n₀) ∧ n₀.to_bytes = some bs ∧
      Node.from_bytes bs = some dn ∧ dn.kind = .Directory := by
  rw [get_directory_node] at h
  split at h
  · rename_i n heq
    simp only [Option.bind_eq_some] at h
    obtain ⟨m, ⟨bs, htb, hfb⟩, hif⟩ := h
    split at hif
    · rename_i hkm
      cases hif
      exact ⟨n, bs, heq, htb, hfb, hkm⟩
    · exact absurd hif (by simp)
  · exact absurd h (by simp)

theorem get_file_node_some {fs : FS} {id : Nat} {fn : Node}
    (h : get_file_node fs id = some fn) :
    ∃ n₀ bs, fs.getBlk id = some (.node n₀) ∧ n₀.to_bytes = some bs ∧
      Node.from_bytes bs = some fn ∧ fn.kind = .File := by
  rw [get_file_node] at h
  split at h
  · rename_i n heq
    simp only [Option.bind_eq_some] at h
    obtain ⟨m, ⟨bs, htb, hfb⟩, hif⟩ := h
    split at hif
    · rename_i hkm
      cases hif
      exact ⟨n, bs, heq, htb, hfb, hkm⟩
    · exact absurd hif (by simp)
  · exact absurd h (by simp)

/-- A directory read only depends on the block read. -/
theorem get_directory_node_congr {fs fs' : FS} {id id' : Nat}
    (h : fs'.getBlk id' = fs.getBlk id) :
    get_directory_node fs' id' = get_directory_node fs id := by
  rw [get_directory_node, get_directory_node, h]

theorem is_full_kind {n : Node} {b : Bool} (h : n.is_full = some b) :
    n.kind = .Directory := by
  rw [Node.is_full] at h
  split at h
  · assumption
  · exact absurd h (by simp)

theorem contains_entry_false {n : Node} {name : List Nat}
    (h : n.contains_entry name = some false) :
    n.kind = .Directory ∧ n.entries.find? (fun e => e.name == name) = none := by
  rw [Node.contains_entry] at h
  split at h
  · rename_i hk
    simp only [Option.some.injEq] at h
    refine ⟨hk, List.find?_eq_none.mpr ?_⟩
    intro e he
    have := List.any_eq_false.mp h e he
    simpa using this
  · exact absurd h (by simp)

theorem push_directory_entry_some {n : Node} {name : List Nat} {b : Nat} {n' : Node}
    (h : n.push_directory_entry name b = some n') :
    n.kind = .Directory ∧ n.size < ENTRY_COUNT ∧
      n' = { n with entries := n.entries ++ [DirectoryEntry.new name b],
                    size := n.size + 1 } := by
  rw [Node.push_directory_entry] at h
  split at h
  · rename_i hc
    cases h
    exact ⟨hc.1, hc.2, rfl⟩
  · exact absurd h (by simp)

/-- Every directory-entry lookup that succeeds in the first node still
succeeds, with the same entry, in the second node. -/
def EntryExt (dn dn' : Node) : Prop :=
  ∀ name e, dn.get_directory_entry name = some e → dn'.get_directory_entry name = some e

/-- Every directory-node read that succeeds in the first remote still
succeeds in the second, on a node whose old entries are intact. -/
def DirExt (fs fs' : FS) : Prop :=
  ∀ id dn, get_directory_node fs id = some dn →
    ∃ dn', get_directory_node fs' id = some dn' ∧ EntryExt dn dn'

theorem entryExt_refl (dn : Node) : EntryExt dn dn := fun _ _ h => h

theorem entryExt_push {dn : Node} {name : List Nat} {b : Nat} {dn' : Node}
    (h : dn.push_directory_entry name b = some dn') : EntryExt dn dn' := by
  obtain ⟨hk, hsz, rfl⟩ := push_directory_entry_some h
  intro nm e he
  rw [Node.get_directory_entry, if_pos hk] at he
  rw [Node.get_directory_entry, if_pos hk, List.find?_append, he]
  rfl

theorem get_directory_entry_push_new {dn : Node} {name : List Nat} {b : Nat} {dn' : Node}
    (hpush : dn.push_directory_entry name b = some dn')
    (hcont : dn.contains_entry name = some false) :
    dn'.get_directory_entry name = some (DirectoryEntry.new name b) := by
  obtain ⟨hk, hsz, rfl⟩ := push_directory_entry_some hpush
  obtain ⟨-, hfind⟩ := contains_entry_false hcont
  rw [Node.get_directory_entry, if_pos hk, List.find?_append, hfind]
  simp [List.find?, DirectoryEntry.new]

/-! ### `split_inclusive` lemmas -/

theorem splitInc_ne_nil (sep : Nat) (l : List Nat) (h : l ≠ []) :
    splitInc sep l ≠ [] := by
  match l with
  | c :: rest =>
    rw [splitInc]
    by_cases hc : c = sep
    · simp [hc]
    · rw [if_neg hc]
      cases splitInc sep rest <;> simp

theorem splitInc_no_sep (l : List Nat) (hne : l ≠ []) (hmem : 47 ∉ l) :
    splitInc 47 l = [l] := by
  induction l with
  | nil => exact absurd rfl hne
  | cons c rest ih =>
    have hc : c ≠ 47 := fun hc => hmem (hc ▸ List.mem_cons_self c rest)
    by_cases hrest : rest = []
    · subst hrest
      simp [splitInc, hc]
    · rw [splitInc, if_neg hc,
        ih hrest (fun hm => hmem (List.mem_cons_of_mem c hm))]

theorem splitInc_append_sep (l₁ l₂ : List Nat) (h1 : l₁.getLast? = some 47)
    (h2 : l₂ ≠ []) : splitInc 47 (l₁ ++ l₂) = splitInc 47 l₁ ++ splitInc 47 l₂ := by
  induction l₁ with
  | nil => simp at h1
  | cons c rest ih =>
    by_cases hrest : rest = []
    · subst hrest
      obtain rfl : c = 47 := by simpa using h1
      obtain ⟨d, ds, rfl⟩ := List.exists_cons_of_ne_nil h2
      rw [List.cons_append, List.nil_append]
      rw [splitInc, if_pos rfl]
      conv_rhs => rw [splitInc, if_pos rfl]
      simp [splitInc]
    · obtain ⟨d, ds, rfl⟩ := List.exists_cons_of_ne_nil hrest
      have h1' : (d :: ds).getLast? = some 47 := by
        rwa [List.getLast?_cons_cons] at h1
      rw [List.cons_append, splitInc]
      conv_rhs => rw [splitInc]
      by_cases hc : c = 47
      · rw [if_pos hc, if_pos hc, ih h1', List.cons_append]
      · rw [if_neg hc, if_neg hc, ih h1']
        cases hsp : splitInc 47 (d :: ds) with
        | nil => exact absurd hsp (splitInc_ne_nil 47 (d :: ds) (by simp))
        | cons s ss => rfl

theorem splitInc_flatten (sep : Nat) (l : List Nat) : (splitInc sep l).flatten = l := by
  induction l with
  | nil => rfl
  | cons c rest ih =>
    rw [splitInc]
    by_cases hc : c = sep
    · rw [if_pos hc]
      simp [ih]
    · rw [if_neg hc]
      cases hsp : splitInc sep rest with
      | nil =>
        have hr : rest = [] := by
          by_contra hne
          exact splitInc_ne_nil sep rest hne hsp
        subst hr
        simp
      | cons s ss =>
        rw [hsp] at ih
        simp only [List.flatten_cons] at ih ⊢
        simp [← ih]

theorem splitInc_mem_ne_nil (sep : Nat) (l : List Nat) :
    ∀ s ∈ splitInc sep l, s ≠ [] := by
  induction l with
  | nil => simp [splitInc]
  | cons c rest ih =>
    rw [splitInc]
    by_cases hc : c = sep
    · rw [if_pos hc]
      intro s hs
      rcases List.mem_cons.mp hs with rfl | hs
      · simp
      · exact ih s hs
    · rw [if_neg hc]
      cases hsp : splitInc sep rest with
      | nil =>
        intro s hs
        simp only [List.mem_singleton] at hs
        subst hs
        simp
      | cons t ts =>
        intro s hs
        rcases List.mem_cons.mp hs with rfl | hs
        · simp
        · exact ih s (by rw [hsp]; exact List.mem_cons_of_mem t hs)

theorem flatten_getLast? (L : List (List Nat)) (s : List Nat)
    (hs : L.getLast? = some s) (hne : s ≠ []) :
    L.flatten.getLast? = s.getLast? := by
  induction L with
  | nil => simp at hs
  | cons t ts ih =>
    cases ts with
    | nil =>
      obtain rfl : t = s := by simpa using hs
      simp
    | cons u us =>
      rw [List.getLast?_cons_cons] at hs
      have hts : (u :: us).flatten ≠ [] := by
        intro hfl
        exact hne (List.flatten_eq_nil_iff.mp hfl s (List.mem_of_mem_getLast? hs))
      rw [List.flatten_cons, List.getLast?_append_of_ne_nil t hts]
      exact ih hs

theorem split_path_file_props {path fp fname : List Nat}
    (h : split_path path false false = some (fp, fname)) :
    fp ++ fname = path ∧ fp.getLast? = some 47 ∧ fname ≠ [] ∧ 47 ∉ fname := by
  rw [split_path] at h
  rw [if_neg (by simp)] at h
  by_cases hlast : path.getLast? = some 47
  · rw [if_pos (by simp [hlast])] at h
    exact absurd h (by simp)
  · rw [if_neg (by simp [hlast])] at h
    rw [if_neg (by simp)] at h
    have hbound : pathBound path false false = path.length := by simp [pathBound]
    rw [hbound, List.take_length] at h
    cases hidx : lastIdxOf path 47 with
    | none =>
      rw [hidx] at h
      exact absurd h (by simp)
    | some k =>
      rw [hidx] at h
      simp only [Option.some.injEq, Prod.mk.injEq] at h
      obtain ⟨rfl, rfl⟩ := h
      obtain ⟨hk, hget, hafter⟩ := lastIdxOf_spec path 47 k hidx
      have hk1 : k + 1 < path.length := by
        rcases Nat.lt_or_ge (k + 1) path.length with hlt | hge
        · exact hlt
        · exfalso
          apply hlast
          rw [List.getLast?_eq_getElem?, show path.length - 1 = k from by omega]
          exact hget
      refine ⟨List.take_append_drop _ _, getLast?_take_of_mem path k hk hget, ?_, ?_⟩
      · intro hnil
        have := congrArg List.length hnil
        simp at this
        omega
      · intro hmem
        obtain ⟨j, hjlt, hjeq⟩ := List.mem_iff_getElem.mp hmem
        have hld : (path.drop (k + 1)).length = path.length - (k + 1) :=
          List.length_drop _ _
        have hdg : (path.drop (k + 1))[j]? = some 47 := by
          rw [List.getElem?_eq_getElem hjlt, hjeq]
        rw [List.getElem?_drop] at hdg
        exact hafter (k + 1 + j) (by omega) (by omega) hdg

theorem traverseFrom_snoc (fs : FS) (xs : List (List Nat)) (y : List Nat) :
    ∀ dn : Node, traverseFrom fs dn (xs ++ [y]) =
      (traverseFrom fs dn xs).bind fun d =>
        if y = [] then none
        else (d.get_directory_entry y).bind fun e => get_directory_node fs e.block := by
  induction xs with
  | nil =>
    intro dn
    simp only [List.nil_append]
    rw [show traverseFrom fs dn [] = some dn from rfl]
    simp only [Option.some_bind]
    by_cases hy : y = []
    · subst hy
      simp [traverseFrom]
    · simp only [traverseFrom, if_neg hy]
      cases dn.get_directory_entry y with
      | none => rfl
      | some e =>
        simp only [Option.some_bind]
        cases get_directory_node fs e.block with
        | none => rfl
        | some d => rfl
  | cons x xs ih =>
    intro dn
    rw [List.cons_append]
    simp only [traverseFrom]
    by_cases hx : x = []
    · simp [hx]
    · simp only [if_neg hx]
      cases dn.get_directory_entry x with
      | none => rfl
      | some e =>
        simp only [Option.some_bind]
        cases get_directory_node fs e.block with
        | none => rfl
        | some dnext =>
          simp only [Option.some_bind]
          exact ih dnext

theorem traverseFrom_ext {fs fs' : FS} (hDE : DirExt fs fs') :
    ∀ (segs : List (List Nat)) (dn dn' d : Node), EntryExt dn dn' →
      traverseFrom fs dn segs = some d →
      ∃ d', traverseFrom fs' dn' segs = some d' ∧ EntryExt d d' := by
  intro segs
  induction segs with
  | nil =>
    intro dn dn' d hext h
    rw [show traverseFrom fs dn [] = some dn from rfl] at h
    cases h
    exact ⟨dn', rfl, hext⟩
  | cons seg rest ih =>
    intro dn dn' d hext h
    simp only [traverseFrom] at h
    by_cases hseg : seg = []
    · rw [if_pos hseg] at h
      exact absurd h (by simp)
    · rw [if_neg hseg] at h
      simp only [Option.bind_eq_some] at h
      obtain ⟨e, he, h⟩ := h
      obtain ⟨dnx, hdx, h⟩ := h
      obtain ⟨dnx', hdx', hx⟩ := hDE e.block dnx hdx
      obtain ⟨d', hd', hdext⟩ := ih dnx dnx' d hx h
      refine ⟨d', ?_, hdext⟩
      simp only [traverseFrom, if_neg hseg]
      rw [hext seg e he]
      simp only [Option.some_bind]
      rw [hdx']
      simp only [Option.some_bind]
      exact hd'

theorem traverse_path_cases {fs : FS} {p : List Nat} {dn : Node} {id : Nat}
    (h : traverse_path fs p = some (dn, id)) :
    p.head? = some 47 ∧
    ((p = [47] ∧ id = fs.root_node_id ∧ get_root_directory_node fs = some dn) ∨
     (p ≠ [47] ∧ ∃ s ss root d e, splitInc 47 p = s :: ss ∧
        get_root_directory_node fs = some root ∧
        traverseFrom fs root ((s :: ss).dropLast.drop 1) = some d ∧
        d.get_directory_entry ((s :: ss).getLast (by simp)) = some e ∧
        id = e.block ∧
        ((((s :: ss).getLast (by simp)).getLast? = some 47 ∧
            get_directory_node fs e.block = some dn) ∨
         (((s :: ss).getLast (by simp)).getLast? ≠ some 47 ∧
            get_file_node fs e.block = some dn)))) := by
  rw [traverse_path] at h
  split at h
  · exact absurd h (by simp)
  · rename_i hhead
    refine ⟨not_not.mp hhead, ?_⟩
    split at h
    · rename_i hp47
      simp only [Option.bind_eq_some] at h
      obtain ⟨r, hr, heq⟩ := h
      simp only [Option.some.injEq, Prod.mk.injEq] at heq
      obtain ⟨rfl, rfl⟩ := heq
      exact Or.inl ⟨hp47, rfl, hr⟩
    · rename_i hp47
      refine Or.inr ⟨hp47, ?_⟩
      split at h
      · exact absurd h (by simp)
      · rename_i s ss hsp
        simp only [Option.bind_eq_some] at h
        obtain ⟨root, hroot, h⟩ := h
        obtain ⟨d, hd, h⟩ := h
        obtain ⟨e, he, h⟩ := h
        refine ⟨s, ss, root, d, e, hsp, hroot, hd, he, ?_⟩
        split at h
        · rename_i h47
          simp only [Option.bind_eq_some] at h
          obtain ⟨dd, hdd, heq⟩ := h
          simp only [Option.some.injEq, Prod.mk.injEq] at heq
          obtain ⟨rfl, rfl⟩ := heq
          exact ⟨rfl, Or.inl ⟨h47, hdd⟩⟩
        · rename_i h47
          simp only [Option.bind_eq_some] at h
          obtain ⟨ff, hff, heq⟩ := h
          simp only [Option.some.injEq, Prod.mk.injEq] at heq
          obtain ⟨rfl, rfl⟩ := heq
          exact ⟨rfl, Or.inr ⟨h47, hff⟩⟩

/-- After the remote is modified in a way that preserves every directory
read (`DirExt`), the path of the parent prefix followed by a fresh file
name resolves to the file node the modified parent directory's new entry
names. -/
theorem traverse_path_ext {fs fs' : FS} {fp fname : List Nat} {dn dn' fnode : Node}
    {did fid : Nat} {e : DirectoryEntry}
    (hDE : DirExt fs fs')
    (hroot : fs'.root_node_id = fs.root_node_id)
    (hlast : fp.getLast? = some 47)
    (hfname : fname ≠ []) (hnosep : 47 ∉ fname)
    (htrav : traverse_path fs fp = some (dn, did))
    (hdn' : get_directory_node fs' did = some dn')
    (hentry : dn'.get_directory_entry fname = some e)
    (heblock : e.block = fid)
    (hfid : get_file_node fs' fid = some fnode) :
    traverse_path fs' (fp ++ fname) = some (fnode, fid) := by
  obtain ⟨hhead, hcases⟩ := traverse_path_cases htrav
  have hfpne : fp ≠ [] := by
    intro hnil
    rw [hnil] at hhead
    simp at hhead
  obtain ⟨c, fp', rfl⟩ := List.exists_cons_of_ne_nil hfpne
  obtain rfl : c = 47 := by simpa using hhead
  have hfnlast : fname.getLast? ≠ some 47 := by
    intro hg
    exact hnosep (List.mem_of_mem_getLast? hg)
  have hdne47 : (47 :: fp') ++ fname ≠ [47] := by
    intro hd
    have hlen := congrArg List.length hd
    simp only [List.length_append, List.length_cons, List.length_nil] at hlen
    have hpos : 0 < fname.length := List.length_pos.mpr hfname
    omega
  have hdhead : ((47 :: fp') ++ fname).head? = some 47 := by simp
  have hsplitd : splitInc 47 ((47 :: fp') ++ fname) =
      splitInc 47 (47 :: fp') ++ [fname] := by
    rw [splitInc_append_sep _ _ hlast hfname, splitInc_no_sep fname hfname hnosep]
  rcases hcases with ⟨hfp47, rfl, hgr⟩ | ⟨hfp47, s, ss, root, d, e0, hsp, hgr, htf, hge, hid, hbr⟩
  · obtain rfl : fp' = [] := by simpa using hfp47
    have hgr' : get_root_directory_node fs' = some dn' := by
      rw [get_root_directory_node_eq, hroot]
      exact hdn'
    have hsp2 : splitInc 47 ((47 :: ([] : List Nat)) ++ fname) = [47] :: [fname] := by
      rw [hsplitd]
      rfl
    rw [traverse_path_cons hdhead hdne47 hsp2, hgr']
    simp only [Option.some_bind]
    rw [show traverseFrom fs' dn' ((([47] : List Nat) :: [fname]).dropLast.drop 1) =
        some dn' from rfl]
    simp only [Option.some_bind]
    rw [show ((([47] : List Nat) :: [fname]).getLast (by simp)) = fname from rfl]
    rw [hentry]
    simp only [Option.some_bind]
    rw [if_neg hfnlast, heblock, hfid]
    simp only [Option.some_bind]
  · have hfp'ne : fp' ≠ [] := by
      intro h0
      rw [h0] at hfp47
      exact hfp47 rfl
    have hsplitfp : splitInc 47 (47 :: fp') = [47] :: splitInc 47 fp' := by
      rw [splitInc, if_pos rfl]
    obtain ⟨t, ts, hB⟩ := List.exists_cons_of_ne_nil (splitInc_ne_nil 47 fp' hfp'ne)
    rw [hsplitfp, hB] at hsp
    injection hsp with h1 h2
    subst h1
    subst h2
    have htf2 : traverseFrom fs root ((t :: ts).dropLast) = some d := htf
    have hge2 : d.get_directory_entry ((t :: ts).getLast (by simp)) = some e0 := hge
    have hlsmem : (t :: ts).getLast (by simp) ∈ splitInc 47 fp' := by
      rw [hB]
      exact List.getLast_mem (by simp)
    have hlsne : (t :: ts).getLast (by simp) ≠ [] :=
      splitInc_mem_ne_nil 47 fp' _ hlsmem
    have hseg47 : ((t :: ts).getLast (by simp)).getLast? = some 47 := by
      have hlsq : (([47] : List Nat) :: t :: ts).getLast? =
          some ((t :: ts).getLast (by simp)) := by
        rw [List.getLast?_cons_cons]
        exact List.getLast?_eq_getLast _ _
      have hfl := flatten_getLast? ([47] :: t :: ts) _ hlsq hlsne
      rw [show (([47] : List Nat) :: t :: ts).flatten = 47 :: fp' from by
        rw [← hB, ← hsplitfp]
        exact splitInc_flatten 47 (47 :: fp')] at hfl
      rw [← hfl]
      exact hlast
    have hdir : get_directory_node fs e0.block = some dn := by
      rcases hbr with ⟨h47, hdd⟩ | ⟨h47, hff⟩
      · exact hdd
      · exact absurd hseg47 h47
    have hsp2 : splitInc 47 ((47 :: fp') ++ fname) =
        [47] :: ((t :: ts) ++ [fname]) := by
      rw [hsplitd, hsplitfp, hB, List.cons_append]
    rw [traverse_path_cons hdhead hdne47 hsp2]
    obtain ⟨root', hgroot', hextroot⟩ := hDE fs.root_node_id root
      (by rw [← get_root_directory_node_eq]; exact hgr)
    have hgr'2 : get_root_directory_node fs' = some root' := by
      rw [get_root_directory_node_eq, hroot]
      exact hgroot'
    rw [hgr'2]
    simp only [Option.some_bind]
    obtain ⟨d', htfd', hextd⟩ :=
      traverseFrom_ext hDE ((t :: ts).dropLast) root root' d hextroot htf2
    have htrav2 : traverseFrom fs' root'
        ((([47] : List Nat) :: ((t :: ts) ++ [fname])).dropLast.drop 1) = some dn' := by
      rw [show (([47] : List Nat) :: ((t :: ts) ++ [fname])).dropLast.drop 1
          = ((t :: ts) ++ [fname]).dropLast from rfl]
      rw [List.dropLast_concat]
      conv_lhs => rw [← List.dropLast_concat_getLast
        (show (t :: ts : List (List Nat)) ≠ [] from by simp)]
      rw [traverseFrom_snoc, htfd']
      simp only [Option.some_bind]
      rw [if_neg hlsne, hextd _ _ hge2]
      simp only [Option.some_bind]
      rw [← hid]
      exact hdn'
    rw [htrav2]
    simp only [Option.some_bind]
    rw [show (((([47] : List Nat)) :: ((t :: ts) ++ [fname])).getLast (by simp)) =
        fname from by
      rw [List.getLast_cons (show ((t :: ts) ++ [fname] : List (List Nat)) ≠ []
        from by simp)]
      exact List.getLast_concat _]
    rw [hentry]
    simp only [Option.some_bind]
    rw [if_neg hfnlast, heblock, hfid]
    simp only [Option.some_bind]

/-- A path the traversal resolves to a directory node resolves it through a
directory read at the returned id. -/
theorem traverse_path_dir_read {fs : FS} {p : List Nat} {dn : Node} {id : Nat}
    (h : traverse_path fs p = some (dn, id)) (hk : dn.kind = .Directory) :
    get_directory_node fs id = some dn ∧ id ≠ 0 ∧ id - 1 < fs.store.length := by
  obtain ⟨-, hcases⟩ := traverse_path_cases h
  have hgd : get_directory_node fs id = some dn := by
    rcases hcases with ⟨-, rfl, hgr⟩ | ⟨-, s, ss, root, d, e0, -, -, -, -, hid, hbr⟩
    · rw [get_root_directory_node_eq] at hgr
      exact hgr
    · rcases hbr with ⟨-, hdd⟩ | ⟨-, hff⟩
      · exact hid ▸ hdd
      · obtain ⟨n₀, bs, -, -, -, hkf⟩ := get_file_node_some hff
        rw [hk] at hkf
        exact absurd hkf (by decide)
  obtain ⟨n₀, bs, hblk, -, -, -⟩ := get_directory_node_some hgd
  obtain ⟨h0, hlt, -⟩ := getBlk_some hblk
  exact ⟨hgd, h0, hlt⟩

/-- The remote after an upload's final two edits extends every directory
read of the original remote. -/
theorem dirExt_upload {fs fs₂ : FS} {ext : List Blk} {did fid : Nat}
    {dn dn' fnode : Node}
    (hstore : fs₂.store = fs.store ++ ext)
    (hgd : get_directory_node fs did = some dn)
    (hdn' : get_directory_node ((fs₂.setBlk did (.node dn')).setBlk fid (.node fnode))
      did = some dn')
    (hext : EntryExt dn dn')
    (hfid : fid = fs.store.length + 1) :
    DirExt fs ((fs₂.setBlk did (.node dn')).setBlk fid (.node fnode)) := by
  subst hfid
  intro id n hgdn
  obtain ⟨m₀, mbs, hblkd, -, -, -⟩ := get_directory_node_some hgd
  obtain ⟨hd0, hdlt, -⟩ := getBlk_some hblkd
  by_cases hido : id = did
  · subst hido
    rw [hgd] at hgdn
    obtain rfl : dn = n := by simpa using hgdn
    exact ⟨dn', hdn', hext⟩
  · refine ⟨n, ?_, entryExt_refl n⟩
    obtain ⟨n₀, bs, hblk, -, -, -⟩ := get_directory_node_some hgdn
    obtain ⟨h0, hlt, hidx⟩ := getBlk_some hblk
    rw [← hgdn]
    apply get_directory_node_congr
    rw [FS.getBlk, if_neg h0]
    simp only [FS.setBlk]
    rw [List.getElem?_set_ne (by omega), List.getElem?_set_ne (by omega)]
    rw [hstore, List.getElem?_append_left hlt]
    rw [FS.getBlk, if_neg h0]

/-- Evaluating the download loop over a block list whose reads all decrypt. -/
theorem downLoop_blocks {c : Cipher} {fs : FS} :
    ∀ (pts : List (List Nat)) (bids : List Nat) (i : Nat),
      bids.length = pts.length →
      (∀ j, j < bids.length →
        (get_data_block fs (bids.getD j 0)).bind
          (fun ct => c.dec (nonceBytes (i + j)) ct) = some (pts.getD j [])) →
      downLoop c fs i bids = some pts.flatten := by
  intro pts
  induction pts with
  | nil =>
    intro bids i hlen hj
    obtain rfl : bids = [] := List.length_eq_zero.mp (by simpa using hlen)
    rfl
  | cons p ps ih =>
    intro bids i hlen hj
    obtain ⟨b, bs, rfl⟩ := List.exists_cons_of_ne_nil (show bids ≠ [] from by
      intro h0
      rw [h0] at hlen
      simp at hlen)
    have h0 := hj 0 (by simp)
    simp only [List.getD_cons_zero, Nat.add_zero] at h0
    simp only [Option.bind_eq_some] at h0
    obtain ⟨ct, hct, hdec⟩ := h0
    have hih : downLoop c fs (i + 1) bs = some ps.flatten := by
      apply ih bs (i + 1) (by simpa using hlen)
      intro j hjlt
      have hs := hj (j + 1) (by simpa using Nat.succ_lt_succ hjlt)
      simp only [List.getD_cons_succ] at hs
      rw [show i + 1 + j = i + (j + 1) from by omega]
      exact hs
    rw [downLoop]
    simp only [hct, hdec, hih, List.flatten_cons]

/-- **C1** (amended): with the cipher an AEAD whose decryption inverts
encryption under the same nonce (as AES-256-GCM-SIV's does), and provided
every byte of the destination path is ASCII and the remote stays small
enough that every fresh block id fits in a `u64`, downloading a path right
after a successful upload to that path, with the same key, returns exactly
the uploaded bytes.  Without the ASCII proviso the claim is false: the
upload stores the new entry name raw, and the download's re-decode of the
parent directory rejects any non-ASCII name byte. -/
theorem claim_C1 {cipherOf : List Nat → Cipher} {fs : FS}
    {source destination key : List Nat} {fs' : FS} {fid : Nat} {tr : List Event}
    (hciph : ∀ n m, (cipherOf ((strBytes key).take 32)).dec n
        ((cipherOf ((strBytes key).take 32)).enc n m) = some m)
    (hascii : ∀ c ∈ destination, c < 128)
    (hids : fs.store.length + 1 + (chunks source).length < U64)
    (h : upload cipherOf fs source destination key = some (fs', fid, tr)) :
    download cipherOf fs' destination key = some source := by
  obtain ⟨hmax, hkey, rfl, file_path, file_name, dir_node, dir_node_id, fs₂, file_node',
    trL, dir_node', fs₃, hsplit, htrav, hfull, hcont, hloop, hpush, hedit, hedit2, htr⟩ :=
    upload_success h
  obtain ⟨hstore, hroot, hfn, htrL⟩ := uploadLoop_spec _ _ _ _ _ _ _ _ hloop
  obtain ⟨hkind3, ⟨bsf, htbf⟩, rfl⟩ := edit_file_node_some hedit2
  obtain ⟨hkind2, ⟨bsd, htbd⟩, rfl⟩ := edit_directory_node_some hedit
  obtain ⟨hpp, hlast, hfnne, hnosep⟩ := split_path_file_props hsplit
  have hkinddn : dir_node.kind = .Directory := is_full_kind hfull
  obtain ⟨hgd0, hdid0, hdidlt⟩ := traverse_path_dir_read htrav hkinddn
  obtain ⟨n₀, bs0, hblk0, htb0, hfb0, -⟩ := get_directory_node_some hgd0
  have hvaD : dir_node.ValidAscii := decode_of_encode_validAscii htb0 hfb0
  obtain ⟨hszD, hparD, hboundD, hmatchD⟩ := hvaD
  have hmatchD2 : dir_node.blocks = [] ∧ dir_node.size = dir_node.entries.length ∧
      ∀ e ∈ dir_node.entries, e.ValidAscii := by
    rw [hkinddn] at hmatchD
    exact hmatchD
  obtain ⟨hblkD, hsizeD, hED⟩ := hmatchD2
  obtain ⟨-, hszE, hdn'eq⟩ := push_directory_entry_some hpush
  obtain ⟨pd, hpd, hbsd2, hlend⟩ := to_bytes_some_dir hkind2 htbd
  have hnameb := entriesBytes_some_bound hpd
  have hplen := entriesBytes_length hpd
  have hvaD' : dir_node'.ValidAscii := by
    have hEC : ENTRY_COUNT < U64 := by decide
    apply validAscii_dir hkind2
    · have hs : dir_node'.size = dir_node.size + 1 := by rw [hdn'eq]
      rw [hs]
      omega
    · have hp : dir_node'.parent_block_id = dir_node.parent_block_id := by rw [hdn'eq]
      rw [hp]
      exact hparD
    · have he : dir_node'.encodedSize =
          24 + (dir_node'.entries.map (fun e => 16 + byteLen e.name)).sum := by
        simp only [Node.encodedSize, hkind2]
      rw [he, ← hplen]
      omega
    · have hb : dir_node'.blocks = dir_node.blocks := by rw [hdn'eq]
      rw [hb]
      exact hblkD
    · rw [hdn'eq]
      show dir_node.size + 1 =
        (dir_node.entries ++ [DirectoryEntry.new file_name (fs.store.length + 1)]).length
      rw [hsizeD]
      simp
    · intro e he
      have he2 : e ∈ dir_node.entries ++
          [DirectoryEntry.new file_name (fs.store.length + 1)] := by
        rw [hdn'eq] at he
        exact he
      rcases List.mem_append.mp he2 with hold | hnew
      · exact hED e hold
      · obtain rfl : e = DirectoryEntry.new file_name (fs.store.length + 1) := by
          simpa using hnew
        have hnewmem : DirectoryEntry.new file_name (fs.store.length + 1) ∈
            dir_node'.entries := by
          rw [hdn'eq]
          simp
        refine ⟨hnameb _ hnewmem, ?_, ?_⟩
        · intro c hc
          apply hascii
          rw [← hpp]
          exact List.mem_append_right _ (by simpa [DirectoryEntry.new] using hc)
        · show fs.store.length + 1 < U64
          omega
  have hstore' : fs₂.store = fs.store ++
      ([Blk.node (Node.new .File dir_node_id)] ++
        (List.range (chunks source).length).map
          (fun j => Blk.data ((cipherOf ((strBytes key).take 32)).enc
            (nonceBytes (0 + j)) ((chunks source).getD j [])))) := by
    rw [hstore]
    simp [List.append_assoc]
  have hlen2 : fs₂.store.length =
      fs.store.length + 1 + (chunks source).length := by
    rw [hstore']
    simp
    omega
  have hblkdn' : ((fs₂.setBlk dir_node_id (Blk.node dir_node')).setBlk
      (fs.store.length + 1) (Blk.node file_node')).getBlk dir_node_id =
      some (Blk.node dir_node') := by
    rw [FS.getBlk, if_neg hdid0]
    simp only [FS.setBlk]
    rw [List.getElem?_set_ne (by omega)]
    exact List.getElem?_set_self (by omega)
  have hdn' : get_directory_node ((fs₂.setBlk dir_node_id (Blk.node dir_node')).setBlk
      (fs.store.length + 1) (Blk.node file_node')) dir_node_id = some dir_node' :=
    get_directory_node_eval hblkdn' hvaD' hkind2
  have hDE : DirExt fs ((fs₂.setBlk dir_node_id (Blk.node dir_node')).setBlk
      (fs.store.length + 1) (Blk.node file_node')) :=
    dirExt_upload hstore' hgd0 hdn' (entryExt_push hpush) rfl
  have hentry : dir_node'.get_directory_entry file_name =
      some (DirectoryEntry.new file_name (fs.store.length + 1)) :=
    get_directory_entry_push_new hpush hcont
  have hblkf : ((fs₂.setBlk dir_node_id (Blk.node dir_node')).setBlk
      (fs.store.length + 1) (Blk.node file_node')).getBlk (fs.store.length + 1) =
      some (Blk.node file_node') := by
    rw [FS.getBlk, if_neg (by omega)]
    simp only [FS.setBlk]
    exact List.getElem?_set_self (by
      simp only [List.length_set]
      omega)
  have hsize' : file_node'.size = source.length := by
    rw [hfn]
    simp [Node.new]
  have hszmax : file_node'.size ≤ MAX_FILE_SIZE := by
    rw [hsize']
    exact hmax
  have hszlt : file_node'.size < U64 := lt_of_le_of_lt hszmax MAX_lt_U64
  have hgf : get_file_node ((fs₂.setBlk dir_node_id (Blk.node dir_node')).setBlk
      (fs.store.length + 1) (Blk.node file_node')) (fs.store.length + 1) =
      some ⟨.File, file_node'.size, file_node'.parent_block_id % U64,
        file_node'.blocks.map (· % U64), []⟩ :=
    get_file_node_decode hblkf hkind3 htbf hszlt hszmax
  have hrootF : ((fs₂.setBlk dir_node_id (Blk.node dir_node')).setBlk
      (fs.store.length + 1) (Blk.node file_node')).root_node_id = fs.root_node_id := by
    simp only [FS.setBlk]
    rw [hroot]
  have htravF : traverse_path ((fs₂.setBlk dir_node_id (Blk.node dir_node')).setBlk
      (fs.store.length + 1) (Blk.node file_node')) destination =
      some (⟨.File, file_node'.size, file_node'.parent_block_id % U64,
        file_node'.blocks.map (· % U64), []⟩, fs.store.length + 1) := by
    rw [← hpp]
    exact traverse_path_ext hDE hrootF hlast hfnne hnosep htrav hdn' hentry rfl hgf
  rw [download, htravF]
  simp only [Option.some_bind]
  rw [if_neg (show ¬ ((⟨.File, file_node'.size, file_node'.parent_block_id % U64,
    file_node'.blocks.map (· % U64), []⟩ : Node).kind = NodeKind.Directory) from by
    simp)]
  rw [if_neg (show ¬ (byteLen key < 32) from by omega)]
  have hblocks : file_node'.blocks = (List.range (chunks source).length).map
      (fun j => fs.store.length + 2 + j) := by
    rw [hfn]
    simp only [Node.new, List.nil_append]
    apply List.map_congr_left
    intro j hj
    simp
  have hblocksDec : file_node'.blocks.map (· % U64) =
      (List.range (chunks source).length).map (fun j => fs.store.length + 2 + j) := by
    rw [hblocks, List.map_map]
    apply List.map_congr_left
    intro j hj
    simp only [List.mem_range] at hj
    simp only [Function.comp_apply]
    exact Nat.mod_eq_of_lt (by omega)
  rw [hblocksDec]
  rw [downLoop_blocks (chunks source) _ 0 (by simp) ?hper]
  · rw [chunks_join]
  case hper =>
    intro j hj
    have hj' : j < (chunks source).length := by simpa using hj
    have hbid : ((List.range (chunks source).length).map
        (fun j => fs.store.length + 2 + j)).getD j 0 = fs.store.length + 2 + j := by
      rw [List.getD_eq_getElem?_getD, List.getElem?_map, List.getElem?_range hj']
      rfl
    rw [hbid]
    have hblk2 : ((fs₂.setBlk dir_node_id (Blk.node dir_node')).setBlk
        (fs.store.length + 1) (Blk.node file_node')).getBlk
        (fs.store.length + 2 + j) =
        some (Blk.data ((cipherOf ((strBytes key).take 32)).enc
          (nonceBytes (0 + j)) ((chunks source).getD j []))) := by
      rw [FS.getBlk, if_neg (by omega)]
      simp only [FS.setBlk]
      rw [List.getElem?_set_ne (by omega), List.getElem?_set_ne (by omega)]
      rw [hstore', List.getElem?_append_right (by omega)]
      rw [show fs.store.length + 2 + j - 1 - fs.store.length = j + 1 from by omega]
      rw [List.singleton_append, List.getElem?_cons_succ]
      rw [List.getElem?_map, List.getElem?_range hj']
      rfl
    rw [show get_data_block ((fs₂.setBlk dir_node_id (Blk.node dir_node')).setBlk
        (fs.store.length + 1) (Blk.node file_node')) (fs.store.length + 2 + j) =
        some ((cipherOf ((strBytes key).take 32)).enc
          (nonceBytes (0 + j)) ((chunks source).getD j [])) from by
      simp [get_data_block, hblk2]]
    simp only [Option.some_bind]
    exact hciph _ _

/-- **C1 counterexample**: uploading one byte with a valid key to the fresh
destination path of a slash followed by the non-ASCII byte 0xE9 succeeds —
the entry encoder only checks the name's byte length — but downloading the
same path with the same key fails: the download re-reads the parent
directory through `Node::from_bytes`, whose rebuilt-name check rejects the
stored non-ASCII entry name. -/
theorem claim_C1_counterexample :
    ([7] : List Nat).length ≤ MAX_FILE_SIZE ∧ 32 ≤ byteLen key0 ∧
    (∀ n m, (idCipherOf ((strBytes key0).take 32)).dec n
        ((idCipherOf ((strBytes key0).take 32)).enc n m) = some m) ∧
    ∃ fs' fid tr, upload idCipherOf fs0 [7] [47, 233] key0 = some (fs', fid, tr) ∧
      download idCipherOf fs' [47, 233] key0 = none := by
  have htbE : (⟨.Directory, 1, 0, [], [DirectoryEntry.new [233] 2]⟩ : Node).to_bytes =
      some (NodeKind.Directory.to_le_bytes ++ (u64le 1 ++ (u64le 0 ++
        ([2, 0, 0, 0, 0, 0, 0, 0, 195, 169, 2, 0, 0, 0, 0, 0, 0, 0] : List Nat)))) :=
    to_bytes_dir_eq _ rfl _ (by decide) (by decide)
  have hrecE : DirectoryEntry.from_le_bytes
      ([2, 0, 0, 0, 0, 0, 0, 0, 195, 169, 2, 0, 0, 0, 0, 0, 0, 0] : List Nat) = none := by
    have h := from_le_bytes_nonascii ⟨[233], 2⟩
        [2, 0, 0, 0, 0, 0, 0, 0, 195, 169, 2, 0, 0, 0, 0, 0, 0, 0] []
        (by decide) (by decide) ⟨233, by decide, by decide⟩ (by decide)
    rwa [List.append_nil] at h
  have hfbE : Node.from_bytes (NodeKind.Directory.to_le_bytes ++ (u64le 1 ++ (u64le 0 ++
      ([2, 0, 0, 0, 0, 0, 0, 0, 195, 169, 2, 0, 0, 0, 0, 0, 0, 0] : List Nat)))) =
      none := by
    rw [from_bytes_directory 1 0 _ (by decide) (by decide) (by decide)]
    rw [hrecE]
  have hgrE : get_root_directory_node
      (⟨[.node ⟨.Directory, 1, 0, [], [DirectoryEntry.new [233] 2]⟩,
         .node ⟨.File, 1, 1, [3], []⟩, .data [7]], 1⟩ : FS) = none := by
    have hgd : get_root_directory_node
        (⟨[.node ⟨.Directory, 1, 0, [], [DirectoryEntry.new [233] 2]⟩,
           .node ⟨.File, 1, 1, [3], []⟩, .data [7]], 1⟩ : FS) =
        (((⟨.Directory, 1, 0, [], [DirectoryEntry.new [233] 2]⟩ : Node).to_bytes).bind
          Node.from_bytes).bind fun m =>
          if m.kind = NodeKind.Directory then some m else none := rfl
    rw [hgd, htbE]
    simp only [Option.some_bind]
    simp [hfbE]
  have htrvE : traverse_path
      (⟨[.node ⟨.Directory, 1, 0, [], [DirectoryEntry.new [233] 2]⟩,
         .node ⟨.File, 1, 1, [3], []⟩, .data [7]], 1⟩ : FS) [47, 233] = none := by
    rw [traverse_path_cons (by decide) (by decide)
      (show splitInc 47 [47, 233] = [[47], [233]] by decide)]
    simp [hgrE]
  have hupE : upload idCipherOf fs0 [7] [47, 233] key0 =
      some (⟨[.node ⟨.Directory, 1, 0, [], [DirectoryEntry.new [233] 2]⟩,
              .node ⟨.File, 1, 1, [3], []⟩, .data [7]], 1⟩, 2,
        Event.sendNode :: [Event.sendData] ++ [Event.editDir, Event.editFile]) := by
    have h2 : split_path [47, 233] false false = some ([47], [233]) := by decide
    have h3 : traverse_path fs0 [47] = some (Node.new .Directory 0, 1) :=
      traverse_path_root (get_root_eval rfl (by decide) rfl)
    have h8 : uploadLoop (idCipherOf ((strBytes key0).take 32))
        ⟨fs0.store ++ [.node (Node.new .File 1)], fs0.root_node_id⟩
        (Node.new .File 1) 0 [7] =
        some (⟨[.node (Node.new .Directory 0), .node (Node.new .File 1), .data [7]], 1⟩,
          ⟨.File, 1, 1, [3], []⟩, [.sendData]) := by
      rw [uploadLoop_one (by decide) (by decide) (by decide) (by decide) (by decide)]
      decide
    have h9 : (Node.new .Directory 0).push_directory_entry [233] (fs0.store.length + 1) =
        some ⟨.Directory, 1, 0, [], [DirectoryEntry.new [233] 2]⟩ := by decide
    have h10 : edit_directory_node
        ⟨[.node (Node.new .Directory 0), .node (Node.new .File 1), .data [7]], 1⟩ 1
        ⟨.Directory, 1, 0, [], [DirectoryEntry.new [233] 2]⟩ =
        some ⟨[.node ⟨.Directory, 1, 0, [], [DirectoryEntry.new [233] 2]⟩,
               .node (Node.new .File 1), .data [7]], 1⟩ := by decide
    have h11 : edit_file_node
        ⟨[.node ⟨.Directory, 1, 0, [], [DirectoryEntry.new [233] 2]⟩,
          .node (Node.new .File 1), .data [7]], 1⟩ (fs0.store.length + 1)
        (⟨.File, 1, 1, [3], []⟩ : Node) =
        some ⟨[.node ⟨.Directory, 1, 0, [], [DirectoryEntry.new [233] 2]⟩,
               .node ⟨.File, 1, 1, [3], []⟩, .data [7]], 1⟩ := by decide
    exact upload_eq (by decide) h2 h3 (by decide) (by decide) (by decide) h8 h9 h10 h11
  have hdownE : download idCipherOf
      (⟨[.node ⟨.Directory, 1, 0, [], [DirectoryEntry.new [233] 2]⟩,
         .node ⟨.File, 1, 1, [3], []⟩, .data [7]], 1⟩ : FS) [47, 233] key0 = none := by
    rw [download]
    simp [htrvE]
  exact ⟨by decide, by decide, fun _ _ => rfl, _, _, _, hupE, hdownE⟩

/-- Witness for C1 (amended) at the concrete one-byte upload with the
identity cipher: the destination is ASCII and the fresh ids fit in a
`u64`, so the download returns the uploaded byte. -/
theorem claim_C1_witness :
    (∀ n m, (idCipherOf ((strBytes key0).take 32)).dec n
        ((idCipherOf ((strBytes key0).take 32)).enc n m) = some m) ∧
    (∀ c ∈ ([47, 102] : List Nat), c < 128) ∧
    fs0.store.length + 1 + (chunks [7]).length < U64 ∧
    download idCipherOf
      (⟨[.node ⟨.Directory, 1, 0, [], [DirectoryEntry.new [102] 2]⟩,
         .node ⟨.File, 1, 1, [3], []⟩, .data [7]], 1⟩ : FS) [47, 102] key0 =
      some [7] :=
  ⟨fun _ _ => rfl, by decide, by rw [chunks_length]; decide,
    claim_C1 (fun _ _ => rfl) (by decide) (by rw [chunks_length]; decide)
      upload_concrete⟩

end DiscordFS
